import Mathlib

/-!
Verification development for the shared map / shared directory core
(`directory.ts` and the SharedMap snapshot module).

The TypeScript sources are shallowly embedded: JS `Map`s become
insertion-ordered association lists, mutation becomes explicit state
passing, thrown exceptions become `Except`/`Option`, and the external
submit function (`submitLocalMessage`) is modelled by passing in the
client sequence number it would return (`-1` when not attached).
Values stored in a directory (`ILocalValue`) are opaque to the code
under study, so the embedding is parametric in a value type `V`; the
serialized payload of a `set` operation is likewise parametric in `S`.

JS `Map.prototype.set` on an existing key updates in place and keeps
insertion order; on a fresh key it appends.  `Map.prototype.get` of a
missing key yields `undefined`, which is also a storable value, hence
storage maps `String` to `Option V` (a `none` entry models a key that
is present but bound to `undefined`).
-/

namespace FluidDir

/-- JS `Map.prototype.get` on an insertion-ordered association list. -/
def mget (m : List (String × α)) (k : String) : Option α :=
  match m with
  | [] => none
  | (k0, v) :: rest => if k0 = k then some v else mget rest k

/-- JS `Map.prototype.has`. -/
def mhas (m : List (String × α)) (k : String) : Bool :=
  (mget m k).isSome

/-- JS `Map.prototype.set`: update in place when present, append when fresh. -/
def mset (m : List (String × α)) (k : String) (v : α) : List (String × α) :=
  if mhas m k then m.map (fun p => if p.1 = k then (k, v) else p)
  else m ++ [(k, v)]

/-- JS `Map.prototype.delete` (the resulting map). -/
def mdel (m : List (String × α)) (k : String) : List (String × α) :=
  m.filter (fun p => p.1 ≠ k)

/-- One node of the directory tree (`class SubDirectory`, directory.ts:667-685):
absolute path, storage, the two pending maps, the pending-clear slot
(`-1` when no local clear is outstanding) and the children map. -/
inductive DirTree (V : Type) : Type where
  | node (absolutePath : String)
         (storage : List (String × Option V))
         (pendingKeys : List (String × Int))
         (pendingSubDirectories : List (String × Int))
         (pendingClearClientSequenceNumber : Int)
         (children : List (String × DirTree V))

namespace DirTree

variable {V : Type}

def absolutePath : DirTree V → String
  | node a _ _ _ _ _ => a

def storage : DirTree V → List (String × Option V)
  | node _ s _ _ _ _ => s

def pendingKeys : DirTree V → List (String × Int)
  | node _ _ pk _ _ _ => pk

def pendingSubDirectories : DirTree V → List (String × Int)
  | node _ _ _ ps _ _ => ps

def pendingClearClientSequenceNumber : DirTree V → Int
  | node _ _ _ _ pc _ => pc

def children : DirTree V → List (String × DirTree V)
  | node _ _ _ _ _ c => c

def withStorage : DirTree V → List (String × Option V) → DirTree V
  | node a _ pk ps pc c, s => node a s pk ps pc c

def withPendingKeys : DirTree V → List (String × Int) → DirTree V
  | node a s _ ps pc c, pk => node a s pk ps pc c

def withPendingSubDirectories : DirTree V → List (String × Int) → DirTree V
  | node a s pk _ pc c, ps => node a s pk ps pc c

def withPendingClear : DirTree V → Int → DirTree V
  | node a s pk ps _ c, pc => node a s pk ps pc c

def withChildren : DirTree V → List (String × DirTree V) → DirTree V
  | node a s pk ps pc _, c => node a s pk ps pc c

end DirTree

/-- The part of an inbound `ISequencedDocumentMessage` the node-level
processing consults. -/
structure SeqMsg where
  clientSequenceNumber : Int
  deriving Repr, DecidableEq

/-- Events emitted on the SharedDirectory (`valueChanged` carries the node's
absolute path and the key; payloads are not modelled). -/
inductive DirEvent where
  | valueChanged (path key : String) (isLocal : Bool)
  | actValueChanged (key : String) (isLocal : Bool)
  | cleared (isLocal : Bool)
  deriving Repr, DecidableEq

variable {V : Type}

/-- `SubDirectory.setCore` (directory.ts:1164-1169): store the value and emit
`valueChanged`. -/
def setCore (t : DirTree V) (key : String) (value : Option V) (isLocal : Bool) :
    DirTree V × List DirEvent :=
  (t.withStorage (mset t.storage key value),
   [DirEvent.valueChanged t.absolutePath key isLocal])

/-- `SubDirectory.deleteCore` (directory.ts:1154-1162): delete the key, emit
`valueChanged` only when the key existed; the Bool is the return value. -/
def deleteCore (t : DirTree V) (key : String) (isLocal : Bool) :
    DirTree V × List DirEvent × Bool :=
  let existed := mhas t.storage key
  let t1 := t.withStorage (mdel t.storage key)
  if existed then (t1, [DirEvent.valueChanged t.absolutePath key isLocal], true)
  else (t1, [], false)

/-- `SubDirectory.clearCore` (directory.ts:1149-1152). -/
def clearCore (t : DirTree V) (isLocal : Bool) : DirTree V × List DirEvent :=
  (t.withStorage [], [DirEvent.cleared isLocal])

/-- JS `Map.get` as used on `_storage`, flattening a stored `undefined`
into the same `undefined` a missing key produces. -/
def flatGet (storage : List (String × Option V)) (k : String) : Option V :=
  (mget storage k).bind id

/-- `SubDirectory.clearExceptPendingKeys` (directory.ts:1136-1147): collect
`storage.get(key)` for each pending key into a temp map (in pending-map
iteration order), clear the storage, and re-insert the temp entries.  A
pending key that is absent from storage is re-inserted bound to
`undefined` (JS `Map.set(k, undefined)` creates an entry). -/
def clearExceptPendingKeys (storage : List (String × Option V))
    (pending : List (String × Int)) : List (String × Option V) :=
  pending.foldl (fun acc p => mset acc p.1 (flatGet storage p.1)) []

/-- `SubDirectory.processClearMessage` (directory.ts:947-961). -/
def processClearMessage (t : DirTree V) (isLocal : Bool) (m : SeqMsg) :
    DirTree V × List DirEvent :=
  if isLocal then
    (if t.pendingClearClientSequenceNumber = m.clientSequenceNumber
     then t.withPendingClear (-1) else t, [])
  else
    (t.withStorage (clearExceptPendingKeys t.storage t.pendingKeys),
     [DirEvent.cleared isLocal])

/-- `SubDirectory.needProcessStorageOperations` (directory.ts:1092-1116).
Returns the boolean together with the node, whose `pendingKeys` the source
mutates in the local-echo case. -/
def needProcessStorageOperations (t : DirTree V) (opKey : String) (isLocal : Bool)
    (m : SeqMsg) : Bool × DirTree V :=
  if t.pendingClearClientSequenceNumber ≠ -1 then
    (false, t)
  else if t.pendingKeys ≠ [] ∧ mhas t.pendingKeys opKey then
    if isLocal then
      match mget t.pendingKeys opKey with
      | some pcs =>
          if pcs = m.clientSequenceNumber
          then (false, t.withPendingKeys (mdel t.pendingKeys opKey))
          else (false, t)
      | none => (false, t)
    else (false, t)
  else (!isLocal, t)

/-- `SubDirectory.processSetMessage` (directory.ts:981-991); `context` is the
local value prepared by the router (`null` for a local echo). -/
def processSetMessage (t : DirTree V) (opKey : String) (context : Option V)
    (isLocal : Bool) (m : SeqMsg) : DirTree V × List DirEvent :=
  let r := needProcessStorageOperations t opKey isLocal m
  if r.1 then setCore r.2 opKey context isLocal else (r.2, [])

/-- `SubDirectory.processDeleteMessage` (directory.ts:966-976). -/
def processDeleteMessage (t : DirTree V) (opKey : String) (isLocal : Bool)
    (m : SeqMsg) : DirTree V × List DirEvent :=
  let r := needProcessStorageOperations t opKey isLocal m
  if r.1 then
    let d := deleteCore r.2 opKey isLocal
    (d.1, d.2.1)
  else (r.2, [])

/-- `SubDirectory.needProcessSubDirectoryOperations` (directory.ts:1118-1134). -/
def needProcessSubDirectoryOperations (t : DirTree V) (name : String)
    (isLocal : Bool) (m : SeqMsg) : Bool × DirTree V :=
  if mhas t.pendingSubDirectories name then
    if isLocal then
      match mget t.pendingSubDirectories name with
      | some pcs =>
          if pcs = m.clientSequenceNumber
          then (false, t.withPendingSubDirectories (mdel t.pendingSubDirectories name))
          else (false, t)
      | none => (false, t)
    else (false, t)
  else (!isLocal, t)

/-- `posix.join(absolutePath, subdirName)` for an absolute base and a
separator-free name, as used when creating a child node. -/
def joinPath (abs name : String) : String :=
  if name = "" then abs
  else if abs = "/" then abs ++ name
  else abs ++ "/" ++ name

/-- A freshly constructed `SubDirectory` (directory.ts:1171-1177). -/
def emptyNode (abs : String) : DirTree V :=
  DirTree.node abs [] [] [] (-1) []

/-- `SubDirectory.createSubDirectoryCore` (directory.ts:1171-1178): insert a
fresh child only when the name is absent (insertion appends). -/
def createSubDirectoryCore (t : DirTree V) (name : String) : DirTree V :=
  if mhas t.children name then t
  else t.withChildren (t.children ++ [(name, emptyNode (joinPath t.absolutePath name))])

/-- `SubDirectory.deleteSubDirectoryCore` (directory.ts:1180-1184). -/
def deleteSubDirectoryCore (t : DirTree V) (name : String) : DirTree V × Bool :=
  (t.withChildren (mdel t.children name), mhas t.children name)

/-- `SubDirectory.processCreateSubDirectoryMessage` (directory.ts:996-1006). -/
def processCreateSubDirectoryMessage (t : DirTree V) (name : String)
    (isLocal : Bool) (m : SeqMsg) : DirTree V × List DirEvent :=
  let r := needProcessSubDirectoryOperations t name isLocal m
  if r.1 then (createSubDirectoryCore r.2 name, []) else (r.2, [])

/-- `SubDirectory.processDeleteSubDirectoryMessage` (directory.ts:1011-1021). -/
def processDeleteSubDirectoryMessage (t : DirTree V) (name : String)
    (isLocal : Bool) (m : SeqMsg) : DirTree V × List DirEvent :=
  let r := needProcessSubDirectoryOperations t name isLocal m
  if r.1 then ((deleteSubDirectoryCore r.2 name).1, []) else (r.2, [])

/-- `SubDirectory.submitKeyMessage` (directory.ts:1036-1041); `csn` is the
client sequence number returned by `submitLocalMessage` (`-1` if detached). -/
def submitKeyMessage (t : DirTree V) (opKey : String) (csn : Int) : DirTree V :=
  if csn ≠ -1 then t.withPendingKeys (mset t.pendingKeys opKey csn) else t

/-- `SubDirectory.submitClearMessage` (directory.ts:1026-1031). -/
def submitClearMessage (t : DirTree V) (csn : Int) : DirTree V :=
  if csn ≠ -1 then t.withPendingClear csn else t

/-- `SubDirectory.submitSubDirectoryMessage` (directory.ts:1046-1051). -/
def submitSubDirectoryMessage (t : DirTree V) (name : String) (csn : Int) : DirTree V :=
  if csn ≠ -1 then t.withPendingSubDirectories (mset t.pendingSubDirectories name csn) else t

/-- The on-wire directory operation (`IDirectoryOperation`); `S` is the
serialized value payload, opaque here.  `other` stands for a message whose
`type` string is not one of the six registered ones. -/
inductive DirOp (S : Type) where
  | set (key path : String) (value : S)
  | delete (key path : String)
  | clear (path : String)
  | createSubDirectory (path subdirName : String)
  | deleteSubDirectory (path subdirName : String)
  | act (key path : String) (opName : String) (value : S)
  | other (opType : String)

/-- `subdirName.indexOf(posix.sep) !== -1` (directory.ts:777). -/
def containsSep (s : String) : Bool :=
  s.toList.contains '/'

variable {S : Type}

/-- `SubDirectory.set` (directory.ts:732-770): apply locally via `setCore`,
then submit a `set` op.  `makeSer` stands for `makeSerializable` on the
local value, opaque to the directory code. -/
def localSet (makeSer : V → S) (t : DirTree V) (key : String) (v : V)
    (csn : Int) : DirTree V × List (DirOp S) × List DirEvent :=
  let r := setCore t key (some v) true
  (submitKeyMessage r.1 key csn, [DirOp.set key t.absolutePath (makeSer v)], r.2)

/-- `SubDirectory.delete` (directory.ts:829-839). -/
def localDelete (t : DirTree V) (key : String) (csn : Int) :
    DirTree V × List (DirOp S) × List DirEvent :=
  let r := deleteCore t key true
  (submitKeyMessage r.1 key csn, [DirOp.delete key t.absolutePath], r.2.1)

/-- `SubDirectory.clear` (directory.ts:844-852). -/
def localClear (t : DirTree V) (csn : Int) :
    DirTree V × List (DirOp S) × List DirEvent :=
  let r := clearCore t true
  (submitClearMessage r.1 csn, [DirOp.clear t.absolutePath], r.2)

/-- `SubDirectory.createSubDirectory` (directory.ts:776-791): names holding
the path separator are rejected synchronously, before any mutation or
submission (the `Except.error` result models the thrown `Error`); otherwise
create the child if absent, submit the op, and return the child. -/
def createSubDirectory (t : DirTree V) (name : String) (csn : Int) :
    Except String (DirTree V × Option (DirTree V) × List (DirOp S)) :=
  if containsSep name then
    Except.error "SubDirectory names may not contain /"
  else
    let t1 := createSubDirectoryCore t name
    let t2 := submitSubDirectoryMessage t1 name csn
    Except.ok (t2, mget t2.children name, [DirOp.createSubDirectory t.absolutePath name])

/-- `SubDirectory.deleteSubDirectory` (directory.ts:813-823). -/
def localDeleteSubDirectory (t : DirTree V) (name : String) (csn : Int) :
    DirTree V × List (DirOp S) × Bool :=
  let r := deleteSubDirectoryCore t name
  (submitSubDirectoryMessage r.1 name csn, [DirOp.deleteSubDirectory t.absolutePath name], r.2)

/-! ### POSIX path resolution

`posix.resolve(sep, path)` and `posix.resolve(absolutePath, path)` from
Node's `path` module, restricted to absolute bases (every `SubDirectory`
has an absolute path).  Paths are split on `'/'`, empty segments dropped,
`"."` skipped and `".."` popped (dropping past the root stays at the
root), and the result rendered back with a leading separator. -/

/-- JS `String.prototype.split` with a one-character separator (does not
drop empty parts). -/
def splitChar (sep : Char) : List Char → List (List Char)
  | [] => [[]]
  | c :: cs =>
    match splitChar sep cs with
    | [] => [[]]
    | h :: t => if c = sep then [] :: h :: t else (c :: h) :: t

/-- The non-empty `'/'`-separated segments of a path. -/
def segsOf (s : String) : List (List Char) :=
  (splitChar '/' s.data).filter (fun l => l ≠ [])

/-- Normalization pass of `posix.resolve`: skip `"."`, pop on `".."`
(capped at the root), keep everything else. -/
def normSegsAux (acc : List (List Char)) : List (List Char) → List (List Char)
  | [] => acc
  | s :: rest =>
    if s = ['.'] then normSegsAux acc rest
    else if s = ['.', '.'] then normSegsAux acc.dropLast rest
    else normSegsAux (acc ++ [s]) rest

/-- Join segments with the separator (JS `Array.prototype.join("/")`). -/
def joinSegs (sep : Char) : List (List Char) → List Char
  | [] => []
  | [s] => s
  | s :: rest => s ++ sep :: joinSegs sep rest

/-- Render a normalized absolute path (`"/"` for no segments). -/
def renderAbs (segs : List (List Char)) : String :=
  String.mk ('/' :: joinSegs '/' segs)

/-- `path.charAt(0) === "/"`. -/
def isAbsolute (s : String) : Bool :=
  s.data.head? == some '/'

/-- `posix.resolve(base, p)` for an absolute `base`: `p` wins when it is
itself absolute, otherwise it is appended to `base`; then normalize. -/
def posixResolve (base p : String) : String :=
  renderAbs (normSegsAux []
    (if isAbsolute p then segsOf p else segsOf base ++ segsOf p))

/-- `absolutePath.substr(1).split(posix.sep)` (directory.ts:284). -/
def componentsOf (absPath : String) : List String :=
  (splitChar '/' (absPath.data.drop 1)).map (fun l => String.mk l)

/-- The walk of directory.ts:283-291: follow the children maps component by
component; `none` as soon as a component is missing. -/
def walkChildren : List String → DirTree V → Option (DirTree V)
  | [], t => some t
  | c :: cs, t =>
    match mget t.children c with
    | none => none
    | some child => walkChildren cs child

/-- `SharedDirectory.getWorkingDirectory` (directory.ts:277-292): make the
path absolute against the root, then walk. -/
def sharedDirGetWorkingDirectory (root : DirTree V) (path : String) :
    Option (DirTree V) :=
  let a := posixResolve "/" path
  if a = "/" then some root
  else walkChildren (componentsOf a) root

/-- `SubDirectory.getWorkingDirectory` (directory.ts:940-942): delegate to
the SharedDirectory with the path resolved against this node's
`absolutePath` (`makeAbsolute`, directory.ts:1088-1090). -/
def subDirGetWorkingDirectory (root : DirTree V) (nodeAbsolutePath path : String) :
    Option (DirTree V) :=
  sharedDirGetWorkingDirectory root (posixResolve nodeAbsolutePath path)

/-- The claim-side reading of the walk: resolve once, then walk the
children maps by the components of that single resolution. -/
def walkResolved (root : DirTree V) (a : String) : Option (DirTree V) :=
  if a = "/" then some root
  else walkChildren (componentsOf a) root

/-! ### The SharedDirectory message router

`prepareCore`/`processCore` and the six installed message handlers
(directory.ts:481-501 and 536-661).  A rejected prepare is `Except.error`;
a JS exception thrown inside `process` is `Option` `none`.  The host
(`SharedObject` base class) runs `prepareCore` and feeds its result to
`processCore`; a rejected prepare makes it log and skip the message
(spec §7), leaving the state untouched. -/

/-- An inbound sequenced message: its envelope `type` (`"op"` =
`MessageType.Operation`), client sequence number and operation contents. -/
structure InMsg (S : Type) where
  msgType : String
  clientSequenceNumber : Int
  contents : DirOp S

/-- The `path` field of an operation (`other` has unknown contents). -/
def DirOp.opPath : DirOp S → Option String
  | .set _ p _ => some p
  | .delete _ p => some p
  | .clear p => some p
  | .createSubDirectory p _ => some p
  | .deleteSubDirectory p _ => some p
  | .act _ p _ _ => some p
  | .other _ => none

/-- `messageHandlers.has(op.type)`: exactly the six types installed by
`setMessageHandlers` are registered. -/
def handlerRegistered : DirOp S → Bool
  | .other _ => false
  | _ => true

/-- Replace the node reached by the given child components (the functional
rendering of the in-place mutation the handlers perform on the node that
`getWorkingDirectory` returned). -/
def replaceAt : List String → DirTree V → DirTree V → DirTree V
  | [], _, nd2 => nd2
  | c :: cs, DirTree.node a s pk ps pc ch, nd2 =>
      DirTree.node a s pk ps pc
        (ch.map (fun p => if p.1 = c then (p.1, replaceAt cs p.2 nd2) else p))

/-- The components `getWorkingDirectory` walks for a given path. -/
def componentsOfPath (path : String) : List String :=
  let a := posixResolve "/" path
  if a = "/" then [] else componentsOf a

/-- The `if (subdir) subdir.processXxx(...)` pattern shared by the five
non-`act` handlers: a path that resolves to no SubDirectory makes the
handler a no-op. -/
def processWithNode (root : DirTree V) (path : String)
    (f : DirTree V → DirTree V × List DirEvent) : DirTree V × List DirEvent :=
  match sharedDirGetWorkingDirectory root path with
  | none => (root, [])
  | some nd =>
    let r := f nd
    (replaceAt (componentsOfPath path) root r.1, r.2)

variable {V S : Type}

/-- `SharedDirectory.prepareCore` (directory.ts:481-491) together with the
per-type `prepare` handlers.  `makeLocal` stands for
`SharedDirectory.makeLocal` (deserialization of a remote `set` payload,
opaque here); `getOpHandler` stands for
`ValueTypeLocalValue.getOpHandler` (the pluggable value-type op table).
The `act` prepare dereferences the local value and the handler without
null checks (directory.ts:640-645): a missing subdirectory, key or handler
throws inside the async function, i.e. rejects the prepare. -/
def prepareCore (makeLocal : S → V) (getOpHandler : V → String → Option (V → V))
    (root : DirTree V) (isLocal : Bool) (m : InMsg S) : Except Unit (Option V) :=
  if m.msgType = "op" then
    match m.contents with
    | .set _ _ v => if isLocal then .ok none else .ok (some (makeLocal v))
    | .delete _ _ => .ok none
    | .clear _ => .ok none
    | .createSubDirectory _ _ => .ok none
    | .deleteSubDirectory _ _ => .ok none
    | .act key path opName _ =>
      match sharedDirGetWorkingDirectory root path with
      | none => .error ()
      | some nd =>
        match flatGet nd.storage key with
        | none => .error ()
        | some lv =>
          match getOpHandler lv opName with
          | none => .error ()
          | some _ => .ok none
    | .other _ => .error ()
  else .error ()

/-- `SharedDirectory.processCore` (directory.ts:493-501) with the per-type
`process` handlers (directory.ts:536-661).  `none` models a thrown
exception (only the `act` handler can throw: it dereferences the local
value and its op handler without null checks, directory.ts:647-652; its
in-place value mutation is rendered functionally by rebinding the key, and
its `valueChanged` event carries no path).  A non-`"op"` envelope or an
unregistered op type is a no-op. -/
def processCore (getOpHandler : V → String → Option (V → V))
    (root : DirTree V) (isLocal : Bool) (m : InMsg S) (context : Option V) :
    Option (DirTree V × List DirEvent) :=
  if m.msgType = "op" then
    match m.contents with
    | .set key path _ =>
      some (processWithNode root path
        (fun nd => processSetMessage nd key context isLocal ⟨m.clientSequenceNumber⟩))
    | .delete key path =>
      some (processWithNode root path
        (fun nd => processDeleteMessage nd key isLocal ⟨m.clientSequenceNumber⟩))
    | .clear path =>
      some (processWithNode root path
        (fun nd => processClearMessage nd isLocal ⟨m.clientSequenceNumber⟩))
    | .createSubDirectory path name =>
      some (processWithNode root path
        (fun nd => processCreateSubDirectoryMessage nd name isLocal ⟨m.clientSequenceNumber⟩))
    | .deleteSubDirectory path name =>
      some (processWithNode root path
        (fun nd => processDeleteSubDirectoryMessage nd name isLocal ⟨m.clientSequenceNumber⟩))
    | .act key path opName _ =>
      match sharedDirGetWorkingDirectory root path with
      | none => none
      | some nd =>
        match flatGet nd.storage key with
        | none => none
        | some lv =>
          match getOpHandler lv opName with
          | none => none
          | some h =>
            some (replaceAt (componentsOfPath path) root
                    (nd.withStorage (mset nd.storage key (some (h lv)))),
                  [DirEvent.actValueChanged key isLocal])
    | .other _ => some (root, [])
  else some (root, [])

/-- The full inbound pipeline: `prepareCore` then `processCore` with the
prepared context; a rejected prepare makes the host skip the message
(state untouched), a `none` result is an exception escaping into the
delta stream. -/
def applyInbound (makeLocal : S → V) (getOpHandler : V → String → Option (V → V))
    (root : DirTree V) (isLocal : Bool) (m : InMsg S) :
    Option (DirTree V × List DirEvent) :=
  match prepareCore makeLocal getOpHandler root isLocal m with
  | .error _ => some (root, [])
  | .ok ctx => processCore getOpHandler root isLocal m ctx

/-! ### Trace model for the pending-map lifecycle (single node)

Local mutations draw their client sequence number from the facade's
counter (`submitLocalMessage` assigns consecutive numbers while
attached); inbound sequenced messages run the node-level processors. -/

/-- A single SubDirectory plus the facade's next client sequence number. -/
structure NodeConfig (V : Type) where
  tree : DirTree V
  nextCsn : Int

/-- Actions on one node: the five local mutators (attached, drawing the
next client sequence number) and the inbound sequenced operations. -/
inductive DirAction (V : Type) where
  | localSetA (key : String) (v : V)
  | localDeleteA (key : String)
  | localClearA
  | localCreateSubDirA (name : String)
  | localDeleteSubDirA (name : String)
  | inboundSet (key : String) (context : Option V) (isLocal : Bool) (csn : Int)
  | inboundDelete (key : String) (isLocal : Bool) (csn : Int)
  | inboundClear (isLocal : Bool) (csn : Int)
  | inboundCreateSubDir (name : String) (isLocal : Bool) (csn : Int)
  | inboundDeleteSubDir (name : String) (isLocal : Bool) (csn : Int)

/-- One step of the trace model. -/
def step (c : NodeConfig V) : DirAction V → NodeConfig V
  | .localSetA key v =>
    ⟨(localSet (S := Unit) (fun _ => ()) c.tree key v c.nextCsn).1, c.nextCsn + 1⟩
  | .localDeleteA key =>
    ⟨(localDelete (S := Unit) c.tree key c.nextCsn).1, c.nextCsn + 1⟩
  | .localClearA =>
    ⟨(localClear (S := Unit) c.tree c.nextCsn).1, c.nextCsn + 1⟩
  | .localCreateSubDirA name =>
    ⟨(match createSubDirectory (S := Unit) c.tree name c.nextCsn with
      | .ok r => r.1
      | .error _ => c.tree), c.nextCsn + 1⟩
  | .localDeleteSubDirA name =>
    ⟨(localDeleteSubDirectory (S := Unit) c.tree name c.nextCsn).1, c.nextCsn + 1⟩
  | .inboundSet key context isLocal csn =>
    ⟨(processSetMessage c.tree key context isLocal ⟨csn⟩).1, c.nextCsn⟩
  | .inboundDelete key isLocal csn =>
    ⟨(processDeleteMessage c.tree key isLocal ⟨csn⟩).1, c.nextCsn⟩
  | .inboundClear isLocal csn =>
    ⟨(processClearMessage c.tree isLocal ⟨csn⟩).1, c.nextCsn⟩
  | .inboundCreateSubDir name isLocal csn =>
    ⟨(processCreateSubDirectoryMessage c.tree name isLocal ⟨csn⟩).1, c.nextCsn⟩
  | .inboundDeleteSubDir name isLocal csn =>
    ⟨(processDeleteSubDirectoryMessage c.tree name isLocal ⟨csn⟩).1, c.nextCsn⟩

/-- Run a list of actions. -/
def run (c : NodeConfig V) (acts : List (DirAction V)) : NodeConfig V :=
  acts.foldl step c

/-- Is this an inbound (sequenced-message) action? -/
def DirAction.isInbound : DirAction V → Bool
  | .localSetA .. | .localDeleteA .. | .localClearA
  | .localCreateSubDirA .. | .localDeleteSubDirA .. => false
  | _ => true

/-- All pending client sequence numbers of a node are below `bound` (the
facade's next number, i.e. nothing pending is newer than the most recently
assigned number). -/
def pendingBound (t : DirTree V) (bound : Int) : Prop :=
  (∀ p ∈ t.pendingKeys, p.2 < bound) ∧
  (∀ p ∈ t.pendingSubDirectories, p.2 < bound) ∧
  (t.pendingClearClientSequenceNumber = -1 ∨
    t.pendingClearClientSequenceNumber < bound)

end FluidDir

/-!
## SharedMap snapshot partitioning and restoration

`SharedMap.snapshot` / `SharedMap.loadCore` from the map module.  Blob
contents are modelled structurally: `addBlobToTree` JSON-stringifies a
data object and `loadCore` parses it back, an inverse pair, so the model
carries the data object itself.  The payload of a stored value is a JSON
string in the kernel's serialized storage and an abstract parsed JSON
value (`J`, via the abstract total `parse`) inside a blob.
-/

namespace FluidMap

open FluidDir (mget mhas mset mdel)

/-- One entry of `MapKernel.getSerializedStorage()`: the value type and the
JSON-serialized payload string (possibly `undefined`). -/
structure SerializedValue where
  type : String
  value : Option String
  deriving Repr, DecidableEq

/-- An `ISerializableValue` as it sits inside a written blob: the payload
has been `JSON.parse`d. -/
structure ParsedValue (J : Type) where
  type : String
  value : Option J
  deriving Repr, DecidableEq

/-- The contents of one tree entry: either a data-object blob
(`IMapDataObjectSerializable`) or the head blob
(`IMapSerializationFormat`, carrying `blobs` and `content`). -/
inductive SnapBlob (J : Type) where
  | chunk (entries : List (String × ParsedValue J))
  | head (blobs : List String) (content : List (String × ParsedValue J))
  deriving Repr, DecidableEq

/-- JS truthiness of `value.value` (`undefined` and `""` are falsy). -/
def truthy (o : Option String) : Bool :=
  match o with
  | none => false
  | some s => !s.isEmpty

/-- `value.value.length` (`0` when there is no payload). -/
def valLen (o : Option String) : Nat :=
  match o with
  | none => 0
  | some s => s.length

/-- `value.value === undefined ? undefined : JSON.parse(value.value)`. -/
def parsedOf (parse : String → J) (v : SerializedValue) : ParsedValue J :=
  ⟨v.type, v.value.map parse⟩

/-- Canonical decimal digits of a natural number (the rendering JS
template interpolation `${counter}` performs); `fuel` bounds the digit
count (`n + 1` always suffices since `n / 10 < n`). -/
def natRenderAux (fuel : Nat) (n : Nat) : List Char :=
  match fuel with
  | 0 => []
  | fuel' + 1 =>
    if n < 10 then [Char.ofNat (48 + n)]
    else natRenderAux fuel' (n / 10) ++ [Char.ofNat (48 + n % 10)]

def natRender (n : Nat) : List Char :=
  natRenderAux (n + 1) n

/-- Value of a decimal digit character (inverse of the rendering). -/
def digitVal (c : Char) : Nat := c.toNat - 48

/-- Parse a decimal digit string back to the number. -/
def parseDigits (l : List Char) : Nat :=
  l.foldl (fun acc c => acc * 10 + digitVal c) 0

/-- The name of the `counter`-th auxiliary blob. -/
def blobName (n : Nat) : String :=
  "blob" ++ String.mk (natRender n)

/-- The mutable locals of `SharedMap.snapshot` (part_001:252-260). -/
structure SnapState (J : Type) where
  currentSize : Nat
  counter : Nat
  headerBlob : List (String × ParsedValue J)
  blobs : List String
  tree : List (String × SnapBlob J)

/-- One iteration of the partitioning loop of `SharedMap.snapshot`
(part_001:281-314): a property with a truthy payload of at least
`MinValueSizeSeparateSnapshotBlob = 8192` UTF-16 units goes into its own
blob; otherwise the running size estimate grows by
`type.length + 21 (+ payload length when truthy)` and, when it exceeds
`MaxSnapshotBlobSize = 16384`, the rolling header blob is flushed (the
counter resets to `0`, not to the triggering entry's size) before the
entry is added to the fresh rolling blob. -/
def snapshotStep (parse : String → J) (st : SnapState J)
    (kv : String × SerializedValue) : SnapState J :=
  let key := kv.1
  let value := kv.2
  if truthy value.value ∧ 8192 ≤ valLen value.value then
    { st with
      counter := st.counter + 1,
      blobs := st.blobs ++ [blobName st.counter],
      tree := st.tree ++
        [(blobName st.counter, SnapBlob.chunk [(key, parsedOf parse value)])] }
  else
    if 16384 < st.currentSize + value.type.length + 21 +
        (if truthy value.value then valLen value.value else 0) then
      { currentSize := 0,
        counter := st.counter + 1,
        headerBlob := [(key, parsedOf parse value)],
        blobs := st.blobs ++ [blobName st.counter],
        tree := st.tree ++ [(blobName st.counter, SnapBlob.chunk st.headerBlob)] }
    else
      { st with
        currentSize := st.currentSize + value.type.length + 21 +
          (if truthy value.value then valLen value.value else 0),
        headerBlob := mset st.headerBlob key (parsedOf parse value) }

/-- `SharedMap.snapshot` (part_001:251-323): partition the serialized
storage, then append the head blob named `header` carrying the auxiliary
blob names (in the order written) and the final rolling content. -/
def snapshot (parse : String → J) (data : List (String × SerializedValue)) :
    List (String × SnapBlob J) :=
  let st := data.foldl (snapshotStep parse) ⟨0, 0, [], [], []⟩
  st.tree ++ [("header", SnapBlob.head st.blobs st.headerBlob)]

/-- The partition in flight, before names are assigned: finished pieces
(in creation order), the rolling header blob and its running estimate. -/
structure ChunkState (J : Type) where
  pieces : List (List (String × ParsedValue J))
  rolling : List (String × ParsedValue J)
  runningSize : Nat

/-- One partitioning step as the claim states it: the running size
estimate is the sum of the per-entry estimates of the entries accumulated
in the rolling blob, so after a flush it starts from the triggering
entry's own estimate. -/
def chunkStepClaim (parse : String → J) (st : ChunkState J)
    (kv : String × SerializedValue) : ChunkState J :=
  let key := kv.1
  let value := kv.2
  if truthy value.value ∧ 8192 ≤ valLen value.value then
    { st with pieces := st.pieces ++ [[(key, parsedOf parse value)]] }
  else
    if 16384 < st.runningSize + value.type.length + 21 +
        (if truthy value.value then valLen value.value else 0) then
      { pieces := st.pieces ++ [st.rolling],
        rolling := [(key, parsedOf parse value)],
        runningSize := value.type.length + 21 +
          (if truthy value.value then valLen value.value else 0) }
    else
      { st with
        rolling := mset st.rolling key (parsedOf parse value),
        runningSize := st.runningSize + value.type.length + 21 +
          (if truthy value.value then valLen value.value else 0) }

/-- One partitioning step as the code performs it: after a flush the
running counter restarts at `0`, the triggering entry's own estimate is
not carried into the fresh rolling blob's counter. -/
def chunkStepAmended (parse : String → J) (st : ChunkState J)
    (kv : String × SerializedValue) : ChunkState J :=
  let key := kv.1
  let value := kv.2
  if truthy value.value ∧ 8192 ≤ valLen value.value then
    { st with pieces := st.pieces ++ [[(key, parsedOf parse value)]] }
  else
    if 16384 < st.runningSize + value.type.length + 21 +
        (if truthy value.value then valLen value.value else 0) then
      { pieces := st.pieces ++ [st.rolling],
        rolling := [(key, parsedOf parse value)],
        runningSize := 0 }
    else
      { st with
        rolling := mset st.rolling key (parsedOf parse value),
        runningSize := st.runningSize + value.type.length + 21 +
          (if truthy value.value then valLen value.value else 0) }

/-- Name the finished pieces `blob<start>`, `blob<start+1>`, … in creation
order. -/
def nameChunks (start : Nat) : List (List (String × ParsedValue J)) →
    List (String × SnapBlob J)
  | [] => []
  | b :: bs => (blobName start, SnapBlob.chunk b) :: nameChunks (start + 1) bs

/-- Render a finished partition as the snapshot tree: the named pieces
followed by the `header` head blob listing all auxiliary names in order. -/
def renderChunks (st : ChunkState J) : List (String × SnapBlob J) :=
  nameChunks 0 st.pieces ++
    [("header",
      SnapBlob.head ((List.range' 0 st.pieces.length).map blobName) st.rolling)]

/-- The snapshot tree as the claim describes the partitioning. -/
def snapshotClaim (parse : String → J) (data : List (String × SerializedValue)) :
    List (String × SnapBlob J) :=
  renderChunks (data.foldl (chunkStepClaim parse) ⟨[], [], 0⟩)

/-- The snapshot tree under the amended (counter-resetting) flush rule. -/
def snapshotAmended (parse : String → J) (data : List (String × SerializedValue)) :
    List (String × SnapBlob J) :=
  renderChunks (data.foldl (chunkStepAmended parse) ⟨[], [], 0⟩)

/-- Modelled from the spec: `MapKernel.populateFromSerializable` (the map
kernel module is not among the sources; spec §4.4 restoration: "populate
from `content`, then read each listed blob … and populate from each")
inserts every entry of a parsed data object into the kernel storage. -/
def populateFromSerializable (st : List (String × ParsedValue J))
    (b : List (String × ParsedValue J)) : List (String × ParsedValue J) :=
  b.foldl (fun acc kv => mset acc kv.1 kv.2) st

/-- `SharedMap.loadCore` (part_001:332-351): read `header`; when its body
has a `blobs` array (the `SnapBlob.head` shape) populate from `content`
and then from every listed blob; otherwise (legacy single-blob form) the
whole body is one data object.  `none` models a failed storage read or a
blob of the wrong shape. -/
def loadCore (tree : List (String × SnapBlob J)) :
    Option (List (String × ParsedValue J)) :=
  match mget tree "header" with
  | none => none
  | some (SnapBlob.head blobs content) =>
    blobs.foldl
      (fun acc name =>
        match acc, mget tree name with
        | some st, some (SnapBlob.chunk b) => some (populateFromSerializable st b)
        | _, _ => none)
      (some (populateFromSerializable [] content))
  | some (SnapBlob.chunk content) => some (populateFromSerializable [] content)

/-- The entries a written blob contributes on load. -/
def blobEntries : SnapBlob J → List (String × ParsedValue J)
  | .chunk b => b
  | .head _ c => c

/-- Every entry across all blobs of a snapshot tree. -/
def allEntries (tree : List (String × SnapBlob J)) :
    List (String × ParsedValue J) :=
  (tree.map (fun p => blobEntries p.2)).flatten

/-- The `SnapState` a `ChunkState` corresponds to: the counter is the
number of finished pieces, the blob names and the tree are the pieces
named positionally. -/
def chunkToSnap (cs : ChunkState J) : SnapState J :=
  ⟨cs.runningSize, cs.pieces.length, cs.rolling,
   (List.range' 0 cs.pieces.length).map blobName,
   nameChunks 0 cs.pieces⟩

/-- All entries a partition holds (finished pieces plus the rolling blob). -/
def chunkEntries (cs : ChunkState J) : List (String × ParsedValue J) :=
  cs.pieces.flatten ++ cs.rolling

/-- The auxiliary blob-name list the head blob of a tree advertises. -/
def headBlobsOf (tree : List (String × SnapBlob J)) : Option (List String) :=
  match FluidDir.mget tree "header" with
  | some (SnapBlob.head bs _) => some bs
  | _ => none

end FluidMap

/-!
## Theorems

Supporting lemmas first, then one theorem per claim (with its
counterexample and witness where required).
-/

namespace FluidDir

variable {V S : Type} {α : Type}

@[simp] theorem DirTree.absolutePath_withStorage (t : DirTree V) (s) :
    (t.withStorage s).absolutePath = t.absolutePath := by cases t; rfl

@[simp] theorem DirTree.storage_withStorage (t : DirTree V) (s) :
    (t.withStorage s).storage = s := by cases t; rfl

@[simp] theorem DirTree.pendingKeys_withStorage (t : DirTree V) (s) :
    (t.withStorage s).pendingKeys = t.pendingKeys := by cases t; rfl

@[simp] theorem DirTree.pendingSubDirectories_withStorage (t : DirTree V) (s) :
    (t.withStorage s).pendingSubDirectories = t.pendingSubDirectories := by cases t; rfl

@[simp] theorem DirTree.pendingClear_withStorage (t : DirTree V) (s) :
    (t.withStorage s).pendingClearClientSequenceNumber
      = t.pendingClearClientSequenceNumber := by cases t; rfl

@[simp] theorem DirTree.children_withStorage (t : DirTree V) (s) :
    (t.withStorage s).children = t.children := by cases t; rfl

@[simp] theorem DirTree.absolutePath_withPendingKeys (t : DirTree V) (pk) :
    (t.withPendingKeys pk).absolutePath = t.absolutePath := by cases t; rfl

@[simp] theorem DirTree.storage_withPendingKeys (t : DirTree V) (pk) :
    (t.withPendingKeys pk).storage = t.storage := by cases t; rfl

@[simp] theorem DirTree.pendingKeys_withPendingKeys (t : DirTree V) (pk) :
    (t.withPendingKeys pk).pendingKeys = pk := by cases t; rfl

@[simp] theorem DirTree.pendingSubDirectories_withPendingKeys (t : DirTree V) (pk) :
    (t.withPendingKeys pk).pendingSubDirectories = t.pendingSubDirectories := by
  cases t; rfl

@[simp] theorem DirTree.pendingClear_withPendingKeys (t : DirTree V) (pk) :
    (t.withPendingKeys pk).pendingClearClientSequenceNumber
      = t.pendingClearClientSequenceNumber := by cases t; rfl

@[simp] theorem DirTree.children_withPendingKeys (t : DirTree V) (pk) :
    (t.withPendingKeys pk).children = t.children := by cases t; rfl

@[simp] theorem DirTree.absolutePath_withPendingSubDirectories (t : DirTree V) (ps) :
    (t.withPendingSubDirectories ps).absolutePath = t.absolutePath := by cases t; rfl

@[simp] theorem DirTree.storage_withPendingSubDirectories (t : DirTree V) (ps) :
    (t.withPendingSubDirectories ps).storage = t.storage := by cases t; rfl

@[simp] theorem DirTree.pendingKeys_withPendingSubDirectories (t : DirTree V) (ps) :
    (t.withPendingSubDirectories ps).pendingKeys = t.pendingKeys := by cases t; rfl

@[simp] theorem DirTree.pendingSubDirectories_withPendingSubDirectories
    (t : DirTree V) (ps) :
    (t.withPendingSubDirectories ps).pendingSubDirectories = ps := by cases t; rfl

@[simp] theorem DirTree.pendingClear_withPendingSubDirectories (t : DirTree V) (ps) :
    (t.withPendingSubDirectories ps).pendingClearClientSequenceNumber
      = t.pendingClearClientSequenceNumber := by cases t; rfl

@[simp] theorem DirTree.children_withPendingSubDirectories (t : DirTree V) (ps) :
    (t.withPendingSubDirectories ps).children = t.children := by cases t; rfl

@[simp] theorem DirTree.absolutePath_withPendingClear (t : DirTree V) (pc) :
    (t.withPendingClear pc).absolutePath = t.absolutePath := by cases t; rfl

@[simp] theorem DirTree.storage_withPendingClear (t : DirTree V) (pc) :
    (t.withPendingClear pc).storage = t.storage := by cases t; rfl

@[simp] theorem DirTree.pendingKeys_withPendingClear (t : DirTree V) (pc) :
    (t.withPendingClear pc).pendingKeys = t.pendingKeys := by cases t; rfl

@[simp] theorem DirTree.pendingSubDirectories_withPendingClear (t : DirTree V) (pc) :
    (t.withPendingClear pc).pendingSubDirectories = t.pendingSubDirectories := by
  cases t; rfl

@[simp] theorem DirTree.pendingClear_withPendingClear (t : DirTree V) (pc) :
    (t.withPendingClear pc).pendingClearClientSequenceNumber = pc := by cases t; rfl

@[simp] theorem DirTree.children_withPendingClear (t : DirTree V) (pc) :
    (t.withPendingClear pc).children = t.children := by cases t; rfl

@[simp] theorem DirTree.absolutePath_withChildren (t : DirTree V) (c) :
    (t.withChildren c).absolutePath = t.absolutePath := by cases t; rfl

@[simp] theorem DirTree.storage_withChildren (t : DirTree V) (c) :
    (t.withChildren c).storage = t.storage := by cases t; rfl

@[simp] theorem DirTree.pendingKeys_withChildren (t : DirTree V) (c) :
    (t.withChildren c).pendingKeys = t.pendingKeys := by cases t; rfl

@[simp] theorem DirTree.pendingSubDirectories_withChildren (t : DirTree V) (c) :
    (t.withChildren c).pendingSubDirectories = t.pendingSubDirectories := by
  cases t; rfl

@[simp] theorem DirTree.pendingClear_withChildren (t : DirTree V) (c) :
    (t.withChildren c).pendingClearClientSequenceNumber
      = t.pendingClearClientSequenceNumber := by cases t; rfl

@[simp] theorem DirTree.children_withChildren (t : DirTree V) (c) :
    (t.withChildren c).children = c := by cases t; rfl

@[simp] theorem mget_nil (k : String) : mget ([] : List (String × α)) k = none := rfl

@[simp] theorem mget_cons (k0 : String) (v : α) (rest) (k) :
    mget ((k0, v) :: rest) k = if k0 = k then some v else mget rest k := rfl

theorem mhas_ne_nil {m : List (String × α)} {k : String} (h : mhas m k = true) :
    m ≠ [] := by
  intro he
  subst he
  simp [mhas, mget] at h

theorem mset_of_not_has {m : List (String × α)} {k : String} (v : α)
    (h : mhas m k = false) : mset m k v = m ++ [(k, v)] := by
  simp [mset, h]

theorem mget_map_keyfun (l : List (String × α)) (g : String → β) (k : String) :
    mget (l.map (fun p => (p.1, g p.1))) k = (mget l k).map (fun _ => g k) := by
  induction l with
  | nil => rfl
  | cons p rest ih =>
    by_cases h : p.1 = k
    · subst h
      simp [mget]
    · simp [mget, h, ih]

theorem mget_map_update_self (m : List (String × α)) (k : String) (v : α)
    (h : mhas m k = true) :
    mget (m.map (fun p => if p.1 = k then (k, v) else p)) k = some v := by
  induction m with
  | nil => simp [mhas, mget] at h
  | cons p rest ih =>
    obtain ⟨k0, v0⟩ := p
    by_cases hp : k0 = k
    · subst hp
      have hhead : (if ((k0, v0) : String × α).1 = k0 then (k0, v) else (k0, v0))
          = (k0, v) := by simp
      rw [List.map_cons, hhead, mget_cons, if_pos rfl]
    · have hr : mhas rest k = true := by simpa [mhas, mget, hp] using h
      have hhead : (if ((k0, v0) : String × α).1 = k then (k, v) else (k0, v0))
          = (k0, v0) := by simp [hp]
      rw [List.map_cons, hhead, mget_cons, if_neg hp]
      exact ih hr

theorem mget_map_update_other (m : List (String × α)) (k k2 : String) (v : α)
    (hne : k ≠ k2) :
    mget (m.map (fun p => if p.1 = k then (k, v) else p)) k2 = mget m k2 := by
  induction m with
  | nil => rfl
  | cons p rest ih =>
    obtain ⟨k0, v0⟩ := p
    by_cases hp : k0 = k
    · subst hp
      have hhead : (if ((k0, v0) : String × α).1 = k0 then (k0, v) else (k0, v0))
          = (k0, v) := by simp
      rw [List.map_cons, hhead, mget_cons, mget_cons, if_neg hne, if_neg hne]
      exact ih
    · have hhead : (if ((k0, v0) : String × α).1 = k then (k, v) else (k0, v0))
          = (k0, v0) := by simp [hp]
      rw [List.map_cons, hhead, mget_cons, mget_cons, ih]

theorem mget_append_fresh (m : List (String × α)) (k : String) (v : α)
    (h : mhas m k = false) : mget (m ++ [(k, v)]) k = some v := by
  induction m with
  | nil => simp [mget]
  | cons p rest ih =>
    obtain ⟨k0, v0⟩ := p
    have hp : ¬ k0 = k := by
      intro he
      simp [mhas, mget, he] at h
    have hr : mhas rest k = false := by simpa [mhas, mget, hp] using h
    simp [mget, hp, ih hr]

theorem mget_append_single_other (m : List (String × α)) (k k2 : String) (v : α)
    (hne : k ≠ k2) : mget (m ++ [(k, v)]) k2 = mget m k2 := by
  induction m with
  | nil => simp [mget, hne]
  | cons p rest ih =>
    obtain ⟨k0, v0⟩ := p
    by_cases hp : k0 = k2
    · simp [mget, hp]
    · simp [mget, hp, ih]

theorem mget_mset_self (m : List (String × α)) (k : String) (v : α) :
    mget (mset m k v) k = some v := by
  by_cases h : mhas m k
  · simp only [mset, h, if_pos]
    exact mget_map_update_self m k v h
  · have h' : mhas m k = false := by simpa using h
    rw [mset_of_not_has v h']
    exact mget_append_fresh m k v h'

theorem mget_mset_other (m : List (String × α)) (k k2 : String) (v : α)
    (hne : k ≠ k2) : mget (mset m k v) k2 = mget m k2 := by
  by_cases h : mhas m k
  · simp only [mset, h, if_pos]
    exact mget_map_update_other m k k2 v hne
  · have h' : mhas m k = false := by simpa using h
    rw [mset_of_not_has v h']
    exact mget_append_single_other m k k2 v hne

theorem mdel_cons_self {k0 : String} (v0 : α) (rest : List (String × α)) (k : String)
    (hp : k0 = k) : mdel ((k0, v0) :: rest) k = mdel rest k := by
  simp [mdel, List.filter_cons, hp]

theorem mdel_cons_other {k0 : String} (v0 : α) (rest : List (String × α)) (k : String)
    (hp : ¬ k0 = k) : mdel ((k0, v0) :: rest) k = (k0, v0) :: mdel rest k := by
  simp [mdel, List.filter_cons, hp]

theorem mget_mdel_self (m : List (String × α)) (k : String) :
    mget (mdel m k) k = none := by
  induction m with
  | nil => rfl
  | cons p rest ih =>
    obtain ⟨k0, v0⟩ := p
    by_cases hp : k0 = k
    · rw [mdel_cons_self v0 rest k hp]
      exact ih
    · rw [mdel_cons_other v0 rest k hp, mget_cons, if_neg hp]
      exact ih

theorem mget_mdel_other (m : List (String × α)) (k k2 : String) (hne : k ≠ k2) :
    mget (mdel m k) k2 = mget m k2 := by
  induction m with
  | nil => rfl
  | cons p rest ih =>
    obtain ⟨k0, v0⟩ := p
    by_cases hp : k0 = k
    · have hp2 : ¬ k0 = k2 := fun he => hne (hp ▸ he)
      rw [mdel_cons_self v0 rest k hp, mget_cons, if_neg hp2]
      exact ih
    · rw [mdel_cons_other v0 rest k hp, mget_cons, mget_cons, ih]

end FluidDir

namespace FluidDir

variable {V S : Type} {α : Type}

theorem mget_append (a b : List (String × α)) (k : String) :
    mget (a ++ b) k = match mget a k with
      | some v => some v
      | none => mget b k := by
  induction a with
  | nil => rfl
  | cons p rest ih =>
    obtain ⟨k0, v0⟩ := p
    by_cases hp : k0 = k
    · simp [mget, hp]
    · simp [mget, hp, ih]

theorem needProcess_of_pendingClear (t : DirTree V) (opKey : String)
    (isLocal : Bool) (m : SeqMsg)
    (h : t.pendingClearClientSequenceNumber ≠ -1) :
    needProcessStorageOperations t opKey isLocal m = (false, t) := by
  unfold needProcessStorageOperations
  rw [if_pos h]

theorem needProcess_of_pending (t : DirTree V) (opKey : String) (isLocal : Bool)
    (m : SeqMsg) (hc : t.pendingClearClientSequenceNumber = -1)
    (hp : mhas t.pendingKeys opKey = true) :
    needProcessStorageOperations t opKey isLocal m =
      (false,
        if isLocal = true ∧ mget t.pendingKeys opKey = some m.clientSequenceNumber
        then t.withPendingKeys (mdel t.pendingKeys opKey) else t) := by
  have hne : t.pendingKeys ≠ [] := mhas_ne_nil hp
  obtain ⟨pcs, hpcs⟩ : ∃ x, mget t.pendingKeys opKey = some x := by
    cases hg : mget t.pendingKeys opKey with
    | none => rw [mhas, hg] at hp; simp at hp
    | some x => exact ⟨x, rfl⟩
  unfold needProcessStorageOperations
  rw [if_neg (by simp [hc]), if_pos ⟨hne, hp⟩, hpcs]
  cases isLocal with
  | false => simp
  | true =>
    simp only [Bool.true_eq, true_and, hpcs, Option.some.injEq]
    by_cases he : pcs = m.clientSequenceNumber
    · simp [he]
    · simp [he]

theorem needProcess_remote_fresh (t : DirTree V) (opKey : String) (m : SeqMsg)
    (hc : t.pendingClearClientSequenceNumber = -1)
    (hp : mhas t.pendingKeys opKey = false) :
    needProcessStorageOperations t opKey false m = (true, t) := by
  unfold needProcessStorageOperations
  rw [if_neg (by simp [hc]), if_neg (by simp [hp])]
  rfl

/-- **C1** (amended).  An inbound sequenced key operation (set or delete)
whose key sits in the node's `pendingKeys` is not applied to storage and
emits no `valueChanged`; and — provided no local clear is pending — when
the message is local and the stored client sequence number equals the
message's, the `pendingKeys` entry is erased. -/
theorem c1_pending_key_shadowing (t : DirTree V) (opKey : String)
    (ctx : Option V) (isLocal : Bool) (m : SeqMsg)
    (hp : mhas t.pendingKeys opKey = true) :
    ((processSetMessage t opKey ctx isLocal m).1.storage = t.storage ∧
     (processSetMessage t opKey ctx isLocal m).2 = [] ∧
     (processDeleteMessage t opKey isLocal m).1.storage = t.storage ∧
     (processDeleteMessage t opKey isLocal m).2 = []) ∧
    (t.pendingClearClientSequenceNumber = -1 → isLocal = true →
      mget t.pendingKeys opKey = some m.clientSequenceNumber →
      (processSetMessage t opKey ctx isLocal m).1.pendingKeys
        = mdel t.pendingKeys opKey ∧
      (processDeleteMessage t opKey isLocal m).1.pendingKeys
        = mdel t.pendingKeys opKey) := by
  by_cases hc : t.pendingClearClientSequenceNumber = -1
  · have hneed := needProcess_of_pending t opKey isLocal m hc hp
    constructor
    · unfold processSetMessage processDeleteMessage
      rw [hneed]
      by_cases hcond : isLocal = true ∧
          mget t.pendingKeys opKey = some m.clientSequenceNumber
      · rw [if_pos hcond]
        simp
      · rw [if_neg hcond]
        simp
    · intro _ hl hcsn
      unfold processSetMessage processDeleteMessage
      rw [hneed]
      have hcond : isLocal = true ∧
          mget t.pendingKeys opKey = some m.clientSequenceNumber := ⟨hl, hcsn⟩
      rw [if_pos hcond]
      simp [setCore]
  · have hneed := needProcess_of_pendingClear t opKey isLocal m hc
    constructor
    · unfold processSetMessage processDeleteMessage
      rw [hneed]
      simp
    · intro hc2
      exact absurd hc2 hc

/-- A node reached by local `set("k", 5)` (client-seq 1) then local
`clear()` (client-seq 2): the key is pending and a local clear is
outstanding. -/
def c1Node : DirTree Nat :=
  DirTree.node "/" [] [("k", 1)] [] 2 []

/-- **C1** counterexample: the local echo of the set (client-seq 1, equal
to the stored entry) arrives while the local clear is still pending; the
claim requires the `pendingKeys` entry to be removed, but
`needProcessStorageOperations` returns at its pending-clear guard and the
entry survives. -/
theorem c1_counterexample :
    mget c1Node.pendingKeys "k" = some 1 ∧
    (processSetMessage c1Node "k" none true ⟨1⟩).1.pendingKeys = [("k", 1)] :=
  ⟨rfl, rfl⟩

/-- Concrete instantiation of `c1_pending_key_shadowing`. -/
def c1WitnessNode : DirTree Nat :=
  DirTree.node "/" [("k", some 5)] [("k", 3)] [] (-1) []

theorem c1_witness :
    mhas c1WitnessNode.pendingKeys "k" = true ∧
    (processSetMessage c1WitnessNode "k" none true ⟨3⟩).1.storage
      = c1WitnessNode.storage ∧
    (processSetMessage c1WitnessNode "k" none true ⟨3⟩).1.pendingKeys
      = mdel c1WitnessNode.pendingKeys "k" := by
  have h := c1_pending_key_shadowing c1WitnessNode "k" none true ⟨3⟩ rfl
  exact ⟨rfl, h.1.1, (h.2 rfl rfl rfl).1⟩

/-- **C2** (amended).  While a local clear is pending every inbound key
operation (set or delete) is ignored wholesale; a local clear echo with
the stored client sequence number resets the marker; and once the marker
is reset, remote key operations — both set and delete — on keys with no
`pendingKeys` entry apply again. -/
theorem c2_local_clear_mask :
    (∀ (t : DirTree V) (opKey : String) (ctx : Option V) (isLocal : Bool)
        (m : SeqMsg), t.pendingClearClientSequenceNumber ≠ -1 →
      (processSetMessage t opKey ctx isLocal m).1 = t ∧
      (processSetMessage t opKey ctx isLocal m).2 = [] ∧
      (processDeleteMessage t opKey isLocal m).1 = t ∧
      (processDeleteMessage t opKey isLocal m).2 = []) ∧
    (∀ (t : DirTree V) (m : SeqMsg),
        t.pendingClearClientSequenceNumber = m.clientSequenceNumber →
      (processClearMessage t true m).1.pendingClearClientSequenceNumber = -1 ∧
      (processClearMessage t true m).1.storage = t.storage) ∧
    (∀ (t : DirTree V) (opKey : String) (ctx : Option V) (m : SeqMsg),
        t.pendingClearClientSequenceNumber = -1 →
        mhas t.pendingKeys opKey = false →
      processSetMessage t opKey ctx false m =
        (t.withStorage (mset t.storage opKey ctx),
         [DirEvent.valueChanged t.absolutePath opKey false])) ∧
    (∀ (t : DirTree V) (opKey : String) (m : SeqMsg),
        t.pendingClearClientSequenceNumber = -1 →
        mhas t.pendingKeys opKey = false →
      processDeleteMessage t opKey false m =
        (t.withStorage (mdel t.storage opKey),
         if mhas t.storage opKey
         then [DirEvent.valueChanged t.absolutePath opKey false]
         else [])) := by
  refine ⟨?_, ?_, ?_, ?_⟩
  · intro t opKey ctx isLocal m h
    have hneed := needProcess_of_pendingClear t opKey isLocal m h
    unfold processSetMessage processDeleteMessage
    rw [hneed]
    simp
  · intro t m h
    unfold processClearMessage
    rw [if_pos rfl, if_pos h]
    simp
  · intro t opKey ctx m hc hp
    have hneed := needProcess_remote_fresh t opKey m hc hp
    unfold processSetMessage
    rw [hneed]
    rfl
  · intro t opKey m hc hp
    have hneed := needProcess_remote_fresh t opKey m hc hp
    unfold processDeleteMessage
    rw [hneed]
    by_cases he : mhas t.storage opKey
    · simp [deleteCore, he]
    · simp [deleteCore, he]

/-- Trace for the C2 counterexample: local `set("a",1)` (cs 1), local
`clear()` (cs 2), then the set echo, the clear echo, and a later remote
`set("a",3)`. -/
def c2Trace : List (DirAction Nat) :=
  [DirAction.localSetA "a" 1, DirAction.localClearA,
   DirAction.inboundSet "a" none true 1, DirAction.inboundClear true 2,
   DirAction.inboundSet "a" (some 3) false 5]

/-- **C2** counterexample: after the local clear's echo has reset the
marker, the subsequent remote `set("a",3)` does *not* apply (the claim
requires storage `[("a", some 3)]`): the set echo was swallowed during the
clear mask, so `"a"` still sits in `pendingKeys` and shadows the remote
op indefinitely. -/
theorem c2_counterexample :
    (run ⟨emptyNode "/", 1⟩ c2Trace).tree.pendingClearClientSequenceNumber = -1 ∧
    (run ⟨emptyNode "/", 1⟩ c2Trace).tree.storage = [] ∧
    (run ⟨emptyNode "/", 1⟩ c2Trace).tree.pendingKeys = [("a", 1)] :=
  ⟨rfl, rfl, rfl⟩

/-- Concrete instantiation of `c2_local_clear_mask`. -/
def c2WitnessNode : DirTree Nat :=
  DirTree.node "/" [("x", some 9)] [] [] 4 []

theorem c2_witness :
    (processSetMessage c2WitnessNode "x" (some 7) false ⟨6⟩).1 = c2WitnessNode ∧
    (processClearMessage c2WitnessNode true ⟨4⟩).1.pendingClearClientSequenceNumber
      = -1 ∧
    processSetMessage (emptyNode "/" : DirTree Nat) "x" (some 7) false ⟨6⟩ =
      ((emptyNode "/" : DirTree Nat).withStorage
         (mset (emptyNode "/" : DirTree Nat).storage "x" (some 7)),
       [DirEvent.valueChanged "/" "x" false]) ∧
    processDeleteMessage (emptyNode "/" : DirTree Nat) "x" false ⟨6⟩ =
      (emptyNode "/", []) := by
  refine ⟨?_, ?_, ?_, ?_⟩
  · exact ((c2_local_clear_mask (V := Nat)).1 c2WitnessNode "x" (some 7) false ⟨6⟩
      (by decide)).1
  · exact ((c2_local_clear_mask (V := Nat)).2.1 c2WitnessNode ⟨4⟩ rfl).1
  · exact (c2_local_clear_mask (V := Nat)).2.2.1 (emptyNode "/") "x" (some 7) ⟨6⟩
      rfl rfl
  · exact (c2_local_clear_mask (V := Nat)).2.2.2 (emptyNode "/") "x" ⟨6⟩ rfl rfl

end FluidDir

namespace FluidDir

variable {V S : Type} {α : Type}

theorem foldl_mset_fresh (st : List (String × Option V)) :
    ∀ (pending : List (String × Int)) (acc : List (String × Option V)),
      (pending.map Prod.fst).Nodup →
      (∀ k, mhas acc k = true → k ∉ pending.map Prod.fst) →
      pending.foldl (fun acc p => mset acc p.1 (flatGet st p.1)) acc
        = acc ++ pending.map (fun p => (p.1, flatGet st p.1)) := by
  intro pending
  induction pending with
  | nil => intro acc _ _; simp
  | cons p rest ih =>
    intro acc hnd hfresh
    obtain ⟨k0, cs0⟩ := p
    have hk0 : mhas acc k0 = false := by
      cases hh : mhas acc k0
      · rfl
      · exact absurd (List.mem_cons_self _ _) (hfresh k0 hh)
    rw [List.foldl_cons]
    have hset : mset acc k0 (flatGet st k0) = acc ++ [(k0, flatGet st k0)] :=
      mset_of_not_has _ hk0
    rw [hset]
    have hnd2 : (rest.map Prod.fst).Nodup := (List.nodup_cons.mp hnd).2
    have hfresh2 : ∀ k, mhas (acc ++ [(k0, flatGet st k0)]) k = true →
        k ∉ rest.map Prod.fst := by
      intro k hk
      rw [mhas, mget_append] at hk
      cases hg : mget acc k with
      | some v =>
        have : mhas acc k = true := by rw [mhas, hg]; rfl
        exact fun hmem => hfresh k this (List.mem_cons_of_mem _ hmem)
      | none =>
        rw [hg] at hk
        have : k0 = k := by
          by_cases hkk : k0 = k
          · exact hkk
          · simp [mget, hkk] at hk
        subst this
        exact (List.nodup_cons.mp hnd).1
    rw [ih (acc ++ [(k0, flatGet st k0)]) hnd2 hfresh2]
    simp

theorem clearExcept_eq (st : List (String × Option V))
    (pending : List (String × Int)) (hnd : (pending.map Prod.fst).Nodup) :
    clearExceptPendingKeys st pending
      = pending.map (fun p => (p.1, flatGet st p.1)) := by
  unfold clearExceptPendingKeys
  rw [foldl_mset_fresh st pending [] hnd (by intro k hk; simp [mhas, mget] at hk)]
  simp

/-- **C10** (amended).  A remote clear with no pending local clear keeps
exactly the pending keys — each bound to the value `storage.get` returns
for it at that moment, which re-inserts a pending key that is absent from
storage as an entry bound to `undefined` — removes every other entry, and
emits `clear`; the surviving entries are laid out in `pendingKeys`
iteration order. -/
theorem c10_remote_clear_preserves_pending (t : DirTree V) (m : SeqMsg)
    (hnd : (t.pendingKeys.map Prod.fst).Nodup)
    (hnc : t.pendingClearClientSequenceNumber = -1) :
    (processClearMessage t false m).1.storage
      = t.pendingKeys.map (fun p => (p.1, flatGet t.storage p.1)) ∧
    (∀ k, mhas t.pendingKeys k = true →
      mget (processClearMessage t false m).1.storage k
        = some (flatGet t.storage k)) ∧
    (∀ k, mhas t.pendingKeys k = false →
      mget (processClearMessage t false m).1.storage k = none) ∧
    (processClearMessage t false m).2 = [DirEvent.cleared false] := by
  have hst : (processClearMessage t false m).1.storage
      = t.pendingKeys.map (fun p => (p.1, flatGet t.storage p.1)) := by
    unfold processClearMessage
    simp [clearExcept_eq t.storage t.pendingKeys hnd]
  refine ⟨hst, ?_, ?_, rfl⟩
  · intro k hk
    rw [hst, mget_map_keyfun]
    rw [mhas] at hk
    cases hg : mget t.pendingKeys k with
    | none => rw [hg] at hk; simp at hk
    | some x => simp
  · intro k hk
    rw [hst, mget_map_keyfun]
    rw [mhas] at hk
    cases hg : mget t.pendingKeys k with
    | none => simp
    | some x => rw [hg] at hk; simp at hk

/-- A node reached by local `delete("k")` while attached (the key is
pending, absent from storage) with another key `"a"` in storage. -/
def c10Node : DirTree Nat :=
  DirTree.node "/" [("a", some 1)] [("k", 5)] [] (-1) []

/-- **C10** counterexample: the remote clear must, per the claim, only
remove non-pending entries and preserve pending ones — so `"k"` (absent
from storage) should stay absent.  The code instead *inserts* an entry
binding `"k"` to `undefined`, so a key that was not in storage is now
present. -/
theorem c10_counterexample :
    mhas c10Node.storage "k" = false ∧
    (processClearMessage c10Node false ⟨9⟩).1.storage = [("k", none)] ∧
    mhas (processClearMessage c10Node false ⟨9⟩).1.storage "k" = true :=
  ⟨rfl, rfl, rfl⟩

/-- Concrete instantiation of `c10_remote_clear_preserves_pending`. -/
def c10WitnessNode : DirTree Nat :=
  DirTree.node "/" [("a", some 1), ("b", some 2)] [("a", 4)] [] (-1) []

theorem c10_witness :
    (processClearMessage c10WitnessNode false ⟨7⟩).1.storage = [("a", some 1)] ∧
    mget (processClearMessage c10WitnessNode false ⟨7⟩).1.storage "b" = none := by
  have h := c10_remote_clear_preserves_pending c10WitnessNode ⟨7⟩ (by decide) rfl
  refine ⟨?_, h.2.2.1 "b" rfl⟩
  rw [h.1]
  rfl

/-- **C7**.  `createSubDirectory` with a name holding the path separator
fails synchronously with the invalid-argument error; the `Except.error`
result is produced before any mutation of children or storage and before
any submission (both are encapsulated in the `Except.ok` payload that is
never built). -/
theorem c7_invalid_subdir_name (t : DirTree V) (name : String) (csn : Int)
    (h : containsSep name = true) :
    createSubDirectory (S := S) t name csn
      = Except.error "SubDirectory names may not contain /" := by
  unfold createSubDirectory
  rw [if_pos h]

theorem c7_witness :
    containsSep "x/y" = true ∧
    createSubDirectory (S := Unit) (emptyNode "/" : DirTree Nat) "x/y" 1
      = Except.error "SubDirectory names may not contain /" :=
  ⟨rfl, c7_invalid_subdir_name _ "x/y" 1 rfl⟩

/-- **C8**.  Creating a subdirectory that already exists returns that very
child (children map unchanged, hence its storage and descendants intact),
leaves storage unchanged, and still submits one `createSubDirectory`
operation. -/
theorem c8_createSubDirectory_idempotent (t : DirTree V) (name : String)
    (csn : Int) (c : DirTree V)
    (hval : containsSep name = false)
    (hex : mget t.children name = some c) :
    createSubDirectory (S := S) t name csn
      = Except.ok (submitSubDirectoryMessage t name csn, some c,
                   [DirOp.createSubDirectory t.absolutePath name]) ∧
    (submitSubDirectoryMessage t name csn).children = t.children ∧
    (submitSubDirectoryMessage t name csn).storage = t.storage := by
  have hhas : mhas t.children name = true := by rw [mhas, hex]; rfl
  have hcore : createSubDirectoryCore t name = t := by
    unfold createSubDirectoryCore
    rw [if_pos hhas]
  have hch : (submitSubDirectoryMessage t name csn).children = t.children := by
    unfold submitSubDirectoryMessage
    by_cases hc : csn ≠ -1
    · rw [if_pos hc]; simp
    · rw [if_neg hc]
  have hstq : (submitSubDirectoryMessage t name csn).storage = t.storage := by
    unfold submitSubDirectoryMessage
    by_cases hc : csn ≠ -1
    · rw [if_pos hc]; simp
    · rw [if_neg hc]
  refine ⟨?_, hch, hstq⟩
  unfold createSubDirectory
  rw [if_neg (by simp [hval]), hcore]
  show Except.ok (submitSubDirectoryMessage t name csn,
      mget (submitSubDirectoryMessage t name csn).children name,
      [DirOp.createSubDirectory t.absolutePath name]) = _
  rw [hch, hex]

/-- Concrete instantiation of `c8_createSubDirectory_idempotent`. -/
def c8Node : DirTree Nat :=
  DirTree.node "/" [("x", some 1)] [] [] (-1) [("a", emptyNode "/a")]

theorem c8_witness :
    createSubDirectory (S := Unit) c8Node "a" 7
      = Except.ok (submitSubDirectoryMessage c8Node "a" 7, some (emptyNode "/a"),
                   [DirOp.createSubDirectory "/" "a"]) ∧
    (submitSubDirectoryMessage c8Node "a" 7).children = c8Node.children := by
  have h := c8_createSubDirectory_idempotent (S := Unit) c8Node "a" 7
    (emptyNode "/a") rfl rfl
  exact ⟨h.1, h.2.1⟩

end FluidDir

namespace FluidDir

variable {V S : Type} {α : Type}

theorem mem_mset (m : List (String × α)) (k : String) (v : α) :
    ∀ p ∈ mset m k v, p ∈ m ∨ p = (k, v) := by
  unfold mset
  split
  · intro p hp
    rcases List.mem_map.mp hp with ⟨q, hq, he⟩
    by_cases hqk : q.1 = k
    · right
      rw [← he, if_pos hqk]
    · left
      rw [← he, if_neg hqk]
      exact hq
  · intro p hp
    rcases List.mem_append.mp hp with h | h
    · exact Or.inl h
    · right
      simpa using h

theorem mdel_sublist (m : List (String × α)) (k : String) :
    (mdel m k).Sublist m :=
  List.filter_sublist m

theorem needProcess_snd_cases (t : DirTree V) (opKey : String) (isLocal : Bool)
    (m : SeqMsg) :
    (needProcessStorageOperations t opKey isLocal m).2 = t ∨
    (needProcessStorageOperations t opKey isLocal m).2
      = t.withPendingKeys (mdel t.pendingKeys opKey) := by
  unfold needProcessStorageOperations
  repeat' split
  all_goals simp

theorem needSub_snd_cases (t : DirTree V) (name : String) (isLocal : Bool)
    (m : SeqMsg) :
    (needProcessSubDirectoryOperations t name isLocal m).2 = t ∨
    (needProcessSubDirectoryOperations t name isLocal m).2
      = t.withPendingSubDirectories (mdel t.pendingSubDirectories name) := by
  unfold needProcessSubDirectoryOperations
  repeat' split
  all_goals simp

theorem needSub_of_pending (t : DirTree V) (name : String) (isLocal : Bool)
    (m : SeqMsg) (hp : mhas t.pendingSubDirectories name = true) :
    needProcessSubDirectoryOperations t name isLocal m =
      (false,
        if isLocal = true ∧
            mget t.pendingSubDirectories name = some m.clientSequenceNumber
        then t.withPendingSubDirectories (mdel t.pendingSubDirectories name)
        else t) := by
  obtain ⟨pcs, hpcs⟩ : ∃ x, mget t.pendingSubDirectories name = some x := by
    cases hg : mget t.pendingSubDirectories name with
    | none => rw [mhas, hg] at hp; simp at hp
    | some x => exact ⟨x, rfl⟩
  unfold needProcessSubDirectoryOperations
  rw [if_pos hp, hpcs]
  cases isLocal with
  | false => simp
  | true =>
    simp only [Bool.true_eq, true_and, hpcs, Option.some.injEq]
    by_cases he : pcs = m.clientSequenceNumber
    · simp [he]
    · simp [he]

theorem createSubDirectoryCore_pending (t : DirTree V) (name : String) :
    (createSubDirectoryCore t name).pendingKeys = t.pendingKeys ∧
    (createSubDirectoryCore t name).pendingSubDirectories
      = t.pendingSubDirectories ∧
    (createSubDirectoryCore t name).pendingClearClientSequenceNumber
      = t.pendingClearClientSequenceNumber := by
  unfold createSubDirectoryCore
  split
  · exact ⟨rfl, rfl, rfl⟩
  · simp

theorem processSet_pending (t : DirTree V) (opKey : String) (ctx : Option V)
    (isLocal : Bool) (m : SeqMsg) :
    ((processSetMessage t opKey ctx isLocal m).1.pendingKeys = t.pendingKeys ∨
     (processSetMessage t opKey ctx isLocal m).1.pendingKeys
       = mdel t.pendingKeys opKey) ∧
    (processSetMessage t opKey ctx isLocal m).1.pendingSubDirectories
      = t.pendingSubDirectories ∧
    (processSetMessage t opKey ctx isLocal m).1.pendingClearClientSequenceNumber
      = t.pendingClearClientSequenceNumber := by
  have h2 := needProcess_snd_cases t opKey isLocal m
  simp only [processSetMessage]
  cases hb : (needProcessStorageOperations t opKey isLocal m).1
  · simp only [Bool.false_eq_true, if_false]
    rcases h2 with h | h <;> rw [h] <;> simp
  · simp only [if_true]
    rcases h2 with h | h <;> rw [h] <;> simp [setCore]

theorem processDelete_pending (t : DirTree V) (opKey : String)
    (isLocal : Bool) (m : SeqMsg) :
    ((processDeleteMessage t opKey isLocal m).1.pendingKeys = t.pendingKeys ∨
     (processDeleteMessage t opKey isLocal m).1.pendingKeys
       = mdel t.pendingKeys opKey) ∧
    (processDeleteMessage t opKey isLocal m).1.pendingSubDirectories
      = t.pendingSubDirectories ∧
    (processDeleteMessage t opKey isLocal m).1.pendingClearClientSequenceNumber
      = t.pendingClearClientSequenceNumber := by
  have h2 := needProcess_snd_cases t opKey isLocal m
  simp only [processDeleteMessage]
  cases hb : (needProcessStorageOperations t opKey isLocal m).1
  · simp only [Bool.false_eq_true, if_false]
    rcases h2 with h | h <;> rw [h] <;> simp
  · simp only [if_true]
    rcases h2 with h | h <;> rw [h] <;> simp [deleteCore]
    · split <;> simp
    · split <;> simp

theorem processClear_pending (t : DirTree V) (isLocal : Bool) (m : SeqMsg) :
    (processClearMessage t isLocal m).1.pendingKeys = t.pendingKeys ∧
    (processClearMessage t isLocal m).1.pendingSubDirectories
      = t.pendingSubDirectories ∧
    ((processClearMessage t isLocal m).1.pendingClearClientSequenceNumber
       = t.pendingClearClientSequenceNumber ∨
     (processClearMessage t isLocal m).1.pendingClearClientSequenceNumber = -1) := by
  unfold processClearMessage
  split
  · split
    · simp
    · simp
  · simp

theorem processCreateSubDir_pending (t : DirTree V) (name : String)
    (isLocal : Bool) (m : SeqMsg) :
    (processCreateSubDirectoryMessage t name isLocal m).1.pendingKeys
      = t.pendingKeys ∧
    ((processCreateSubDirectoryMessage t name isLocal m).1.pendingSubDirectories
       = t.pendingSubDirectories ∨
     (processCreateSubDirectoryMessage t name isLocal m).1.pendingSubDirectories
       = mdel t.pendingSubDirectories name) ∧
    (processCreateSubDirectoryMessage t name isLocal m).1.pendingClearClientSequenceNumber
      = t.pendingClearClientSequenceNumber := by
  have h2 := needSub_snd_cases t name isLocal m
  simp only [processCreateSubDirectoryMessage]
  cases hb : (needProcessSubDirectoryOperations t name isLocal m).1
  · simp only [Bool.false_eq_true, if_false]
    rcases h2 with h | h <;> rw [h] <;> simp
  · simp only [if_true]
    rcases h2 with h | h <;> rw [h]
    · have hc := createSubDirectoryCore_pending t name
      exact ⟨hc.1, Or.inl hc.2.1, hc.2.2⟩
    · have hc := createSubDirectoryCore_pending
        (t.withPendingSubDirectories (mdel t.pendingSubDirectories name)) name
      refine ⟨by rw [hc.1]; simp, Or.inr (by rw [hc.2.1]; simp), by rw [hc.2.2]; simp⟩

theorem processDeleteSubDir_pending (t : DirTree V) (name : String)
    (isLocal : Bool) (m : SeqMsg) :
    (processDeleteSubDirectoryMessage t name isLocal m).1.pendingKeys
      = t.pendingKeys ∧
    ((processDeleteSubDirectoryMessage t name isLocal m).1.pendingSubDirectories
       = t.pendingSubDirectories ∨
     (processDeleteSubDirectoryMessage t name isLocal m).1.pendingSubDirectories
       = mdel t.pendingSubDirectories name) ∧
    (processDeleteSubDirectoryMessage t name isLocal m).1.pendingClearClientSequenceNumber
      = t.pendingClearClientSequenceNumber := by
  have h2 := needSub_snd_cases t name isLocal m
  simp only [processDeleteSubDirectoryMessage]
  cases hb : (needProcessSubDirectoryOperations t name isLocal m).1
  · simp only [Bool.false_eq_true, if_false]
    rcases h2 with h | h <;> rw [h] <;> simp
  · simp only [if_true]
    rcases h2 with h | h <;> rw [h] <;> simp [deleteSubDirectoryCore]

end FluidDir

namespace FluidDir

variable {V S : Type} {α : Type}

theorem pendingBound_mono {t : DirTree V} {b b' : Int} (h : pendingBound t b)
    (hb : b ≤ b') : pendingBound t b' := by
  obtain ⟨h1, h2, h3⟩ := h
  refine ⟨fun p hp => lt_of_lt_of_le (h1 p hp) hb,
          fun p hp => lt_of_lt_of_le (h2 p hp) hb, ?_⟩
  rcases h3 with h3 | h3
  · exact Or.inl h3
  · exact Or.inr (lt_of_lt_of_le h3 hb)

theorem pendingBound_withStorage {t : DirTree V} {b : Int}
    (s : List (String × Option V)) (h : pendingBound t b) :
    pendingBound (t.withStorage s) b :=
  ⟨by simpa using h.1, by simpa using h.2.1, by simpa using h.2.2⟩

theorem pendingBound_withChildren {t : DirTree V} {b : Int}
    (c : List (String × DirTree V)) (h : pendingBound t b) :
    pendingBound (t.withChildren c) b :=
  ⟨by simpa using h.1, by simpa using h.2.1, by simpa using h.2.2⟩

theorem pendingBound_of_eq {t t' : DirTree V} {b : Int} (h : pendingBound t b)
    (h1 : t'.pendingKeys = t.pendingKeys)
    (h2 : t'.pendingSubDirectories = t.pendingSubDirectories)
    (h3 : t'.pendingClearClientSequenceNumber
      = t.pendingClearClientSequenceNumber) :
    pendingBound t' b :=
  ⟨by rw [h1]; exact h.1, by rw [h2]; exact h.2.1, by rw [h3]; exact h.2.2⟩

theorem submitKeyMessage_bound {t : DirTree V} {b : Int} (k : String) (csn : Int)
    (h : pendingBound t b) (hcsn : csn < b) :
    pendingBound (submitKeyMessage t k csn) b := by
  unfold submitKeyMessage
  split
  · refine ⟨?_, by simpa using h.2.1, by simpa using h.2.2⟩
    intro p hp
    simp only [DirTree.pendingKeys_withPendingKeys] at hp
    rcases mem_mset _ _ _ p hp with hm | hm
    · exact h.1 p hm
    · rw [hm]
      exact hcsn
  · exact h

theorem submitSubDirectoryMessage_bound {t : DirTree V} {b : Int} (n : String)
    (csn : Int) (h : pendingBound t b) (hcsn : csn < b) :
    pendingBound (submitSubDirectoryMessage t n csn) b := by
  unfold submitSubDirectoryMessage
  split
  · refine ⟨by simpa using h.1, ?_, by simpa using h.2.2⟩
    intro p hp
    simp only [DirTree.pendingSubDirectories_withPendingSubDirectories] at hp
    rcases mem_mset _ _ _ p hp with hm | hm
    · exact h.2.1 p hm
    · rw [hm]
      exact hcsn
  · exact h

theorem submitClearMessage_bound {t : DirTree V} {b : Int} (csn : Int)
    (h : pendingBound t b) (hcsn : csn < b) :
    pendingBound (submitClearMessage t csn) b := by
  unfold submitClearMessage
  split
  · exact ⟨by simpa using h.1, by simpa using h.2.1, Or.inr (by simpa using hcsn)⟩
  · exact h

theorem step_preserves_pendingBound (c : NodeConfig V) (a : DirAction V)
    (h : pendingBound c.tree c.nextCsn) :
    pendingBound (step c a).tree (step c a).nextCsn := by
  have hmono : pendingBound c.tree (c.nextCsn + 1) :=
    pendingBound_mono h (by omega)
  have hlt : c.nextCsn < c.nextCsn + 1 := by omega
  cases a with
  | localSetA key v =>
    simp only [step, localSet, setCore]
    exact submitKeyMessage_bound key c.nextCsn
      (pendingBound_withStorage _ hmono) hlt
  | localDeleteA key =>
    simp only [step, localDelete, deleteCore]
    split
    · exact submitKeyMessage_bound key c.nextCsn
        (pendingBound_withStorage _ hmono) hlt
    · exact submitKeyMessage_bound key c.nextCsn
        (pendingBound_withStorage _ hmono) hlt
  | localClearA =>
    simp only [step, localClear, clearCore]
    exact submitClearMessage_bound c.nextCsn
      (pendingBound_withStorage _ hmono) hlt
  | localCreateSubDirA name =>
    simp only [step, createSubDirectory]
    by_cases hsep : containsSep name
    · rw [if_pos hsep]
      exact hmono
    · rw [if_neg hsep]
      have hc := createSubDirectoryCore_pending c.tree name
      exact submitSubDirectoryMessage_bound name c.nextCsn
        (pendingBound_of_eq hmono hc.1 hc.2.1 hc.2.2) hlt
  | localDeleteSubDirA name =>
    simp only [step, localDeleteSubDirectory, deleteSubDirectoryCore]
    exact submitSubDirectoryMessage_bound name c.nextCsn
      (pendingBound_withChildren _ hmono) hlt
  | inboundSet key ctx isLocal csn =>
    obtain ⟨h1, h2, h3⟩ := processSet_pending c.tree key ctx isLocal ⟨csn⟩
    simp only [step]
    refine ⟨?_, fun p hp => h.2.1 p (h2 ▸ hp), ?_⟩
    · intro p hp
      rcases h1 with he | he
      · exact h.1 p (he ▸ hp)
      · exact h.1 p ((mdel_sublist _ _).subset (he ▸ hp))
    · rw [h3]
      exact h.2.2
  | inboundDelete key isLocal csn =>
    obtain ⟨h1, h2, h3⟩ := processDelete_pending c.tree key isLocal ⟨csn⟩
    simp only [step]
    refine ⟨?_, fun p hp => h.2.1 p (h2 ▸ hp), ?_⟩
    · intro p hp
      rcases h1 with he | he
      · exact h.1 p (he ▸ hp)
      · exact h.1 p ((mdel_sublist _ _).subset (he ▸ hp))
    · rw [h3]
      exact h.2.2
  | inboundClear isLocal csn =>
    obtain ⟨h1, h2, h3⟩ := processClear_pending c.tree isLocal ⟨csn⟩
    simp only [step]
    refine ⟨fun p hp => h.1 p (h1 ▸ hp), fun p hp => h.2.1 p (h2 ▸ hp), ?_⟩
    rcases h3 with he | he
    · rw [he]
      exact h.2.2
    · exact Or.inl he
  | inboundCreateSubDir name isLocal csn =>
    obtain ⟨h1, h2, h3⟩ := processCreateSubDir_pending c.tree name isLocal ⟨csn⟩
    simp only [step]
    refine ⟨fun p hp => h.1 p (h1 ▸ hp), ?_, ?_⟩
    · intro p hp
      rcases h2 with he | he
      · exact h.2.1 p (he ▸ hp)
      · exact h.2.1 p ((mdel_sublist _ _).subset (he ▸ hp))
    · rw [h3]
      exact h.2.2
  | inboundDeleteSubDir name isLocal csn =>
    obtain ⟨h1, h2, h3⟩ := processDeleteSubDir_pending c.tree name isLocal ⟨csn⟩
    simp only [step]
    refine ⟨fun p hp => h.1 p (h1 ▸ hp), ?_, ?_⟩
    · intro p hp
      rcases h2 with he | he
      · exact h.2.1 p (he ▸ hp)
      · exact h.2.1 p ((mdel_sublist _ _).subset (he ▸ hp))
    · rw [h3]
      exact h.2.2

theorem step_inbound_shrink (c : NodeConfig V) (a : DirAction V)
    (ha : a.isInbound = true) :
    (step c a).tree.pendingKeys.Sublist c.tree.pendingKeys ∧
    (step c a).tree.pendingSubDirectories.Sublist c.tree.pendingSubDirectories ∧
    ((step c a).tree.pendingClearClientSequenceNumber
       = c.tree.pendingClearClientSequenceNumber ∨
     (step c a).tree.pendingClearClientSequenceNumber = -1) ∧
    (step c a).nextCsn = c.nextCsn := by
  cases a with
  | localSetA key v => simp [DirAction.isInbound] at ha
  | localDeleteA key => simp [DirAction.isInbound] at ha
  | localClearA => simp [DirAction.isInbound] at ha
  | localCreateSubDirA name => simp [DirAction.isInbound] at ha
  | localDeleteSubDirA name => simp [DirAction.isInbound] at ha
  | inboundSet key ctx isLocal csn =>
    obtain ⟨h1, h2, h3⟩ := processSet_pending c.tree key ctx isLocal ⟨csn⟩
    simp only [step]
    refine ⟨?_, by rw [h2], Or.inl h3, trivial⟩
    rcases h1 with he | he
    · rw [he]
    · rw [he]
      exact mdel_sublist _ _
  | inboundDelete key isLocal csn =>
    obtain ⟨h1, h2, h3⟩ := processDelete_pending c.tree key isLocal ⟨csn⟩
    simp only [step]
    refine ⟨?_, by rw [h2], Or.inl h3, trivial⟩
    rcases h1 with he | he
    · rw [he]
    · rw [he]
      exact mdel_sublist _ _
  | inboundClear isLocal csn =>
    obtain ⟨h1, h2, h3⟩ := processClear_pending c.tree isLocal ⟨csn⟩
    simp only [step]
    exact ⟨by rw [h1], by rw [h2], h3, trivial⟩
  | inboundCreateSubDir name isLocal csn =>
    obtain ⟨h1, h2, h3⟩ := processCreateSubDir_pending c.tree name isLocal ⟨csn⟩
    simp only [step]
    refine ⟨by rw [h1], ?_, Or.inl h3, trivial⟩
    rcases h2 with he | he
    · rw [he]
    · rw [he]
      exact mdel_sublist _ _
  | inboundDeleteSubDir name isLocal csn =>
    obtain ⟨h1, h2, h3⟩ := processDeleteSubDir_pending c.tree name isLocal ⟨csn⟩
    simp only [step]
    refine ⟨by rw [h1], ?_, Or.inl h3, trivial⟩
    rcases h2 with he | he
    · rw [he]
    · rw [he]
      exact mdel_sublist _ _

theorem run_preserves_pendingBound (c : NodeConfig V)
    (acts : List (DirAction V)) (h : pendingBound c.tree c.nextCsn) :
    pendingBound (run c acts).tree (run c acts).nextCsn := by
  induction acts generalizing c with
  | nil => exact h
  | cons a rest ih => exact ih (step c a) (step_preserves_pendingBound c a h)

end FluidDir

namespace FluidDir

/-- **C3** (amended).  (1) Every local set/delete/createSubDirectory/
deleteSubDirectory/clear submitted while attached (`csn ≠ -1`) records
exactly one entry for its key/name — the assigned client sequence number —
in the corresponding pending map (overwriting any earlier entry for the
same key/name), (2) the entry is removed by the local echo whose
clientSequenceNumber equals the stored number (for key operations only
while no local clear is pending), (3) inbound processing never adds
pending entries — pending maps shrink monotonically as echoes arrive —
and (4) along any run, pending maps never contain an entry with a client
sequence number at or beyond the facade's next (i.e. newer than the most
recently assigned) number. -/
theorem c3_pending_lifecycle {V S : Type} :
    (∀ (makeSer : V → S) (t : DirTree V) (k : String) (v : V) (csn : Int),
      csn ≠ -1 →
      ((localSet makeSer t k v csn).1).pendingKeys = mset t.pendingKeys k csn) ∧
    (∀ (t : DirTree V) (k : String) (csn : Int), csn ≠ -1 →
      ((localDelete (S := S) t k csn).1).pendingKeys = mset t.pendingKeys k csn) ∧
    (∀ (t : DirTree V) (csn : Int), csn ≠ -1 →
      ((localClear (S := S) t csn).1).pendingClearClientSequenceNumber = csn) ∧
    (∀ (t : DirTree V) (n : String) (csn : Int)
        (r : DirTree V × Option (DirTree V) × List (DirOp S)), csn ≠ -1 →
      createSubDirectory t n csn = Except.ok r →
      r.1.pendingSubDirectories = mset t.pendingSubDirectories n csn) ∧
    (∀ (t : DirTree V) (n : String) (csn : Int), csn ≠ -1 →
      ((localDeleteSubDirectory (S := S) t n csn).1).pendingSubDirectories
        = mset t.pendingSubDirectories n csn) ∧
    (∀ (t : DirTree V) (k : String) (ctx : Option V) (cs : Int),
      t.pendingClearClientSequenceNumber = -1 →
      mget t.pendingKeys k = some cs →
      (processSetMessage t k ctx true ⟨cs⟩).1.pendingKeys
        = mdel t.pendingKeys k ∧
      (processDeleteMessage t k true ⟨cs⟩).1.pendingKeys
        = mdel t.pendingKeys k) ∧
    (∀ (t : DirTree V) (n : String) (cs : Int),
      mget t.pendingSubDirectories n = some cs →
      (processCreateSubDirectoryMessage t n true ⟨cs⟩).1.pendingSubDirectories
        = mdel t.pendingSubDirectories n ∧
      (processDeleteSubDirectoryMessage t n true ⟨cs⟩).1.pendingSubDirectories
        = mdel t.pendingSubDirectories n) ∧
    (∀ (t : DirTree V) (cs : Int), t.pendingClearClientSequenceNumber = cs →
      (processClearMessage t true ⟨cs⟩).1.pendingClearClientSequenceNumber
        = -1) ∧
    (∀ (c : NodeConfig V) (a : DirAction V), a.isInbound = true →
      (step c a).tree.pendingKeys.Sublist c.tree.pendingKeys ∧
      (step c a).tree.pendingSubDirectories.Sublist
        c.tree.pendingSubDirectories ∧
      ((step c a).tree.pendingClearClientSequenceNumber
         = c.tree.pendingClearClientSequenceNumber ∨
       (step c a).tree.pendingClearClientSequenceNumber = -1)) ∧
    (∀ (c : NodeConfig V) (acts : List (DirAction V)),
      pendingBound c.tree c.nextCsn →
      pendingBound (run c acts).tree (run c acts).nextCsn) := by
  refine ⟨?_, ?_, ?_, ?_, ?_, ?_, ?_, ?_, ?_, ?_⟩
  · intro makeSer t k v csn hcsn
    simp only [localSet, setCore, submitKeyMessage]
    rw [if_pos hcsn]
    simp
  · intro t k csn hcsn
    simp only [localDelete, deleteCore]
    split
    · simp only [submitKeyMessage]
      rw [if_pos hcsn]
      simp
    · simp only [submitKeyMessage]
      rw [if_pos hcsn]
      simp
  · intro t csn hcsn
    simp only [localClear, clearCore, submitClearMessage]
    rw [if_pos hcsn]
    simp
  · intro t n csn r hcsn hok
    unfold createSubDirectory at hok
    by_cases hsep : containsSep n
    · rw [if_pos hsep] at hok
      exact absurd hok (by simp)
    · rw [if_neg hsep] at hok
      have hr : r.1 = submitSubDirectoryMessage (createSubDirectoryCore t n) n csn := by
        have := (Except.ok.injEq _ _).mp hok.symm
        rw [this]
      rw [hr]
      simp only [submitSubDirectoryMessage]
      rw [if_pos hcsn]
      have hc := createSubDirectoryCore_pending t n
      simp [hc.2.1]
  · intro t n csn hcsn
    simp only [localDeleteSubDirectory, deleteSubDirectoryCore,
      submitSubDirectoryMessage]
    rw [if_pos hcsn]
    simp
  · intro t k ctx cs hclear hget
    have hhas : mhas t.pendingKeys k = true := by rw [mhas, hget]; rfl
    have hneed := needProcess_of_pending t k true ⟨cs⟩ hclear hhas
    have hcond : (true = true) ∧ mget t.pendingKeys k
        = some (SeqMsg.clientSequenceNumber ⟨cs⟩) := ⟨rfl, hget⟩
    constructor
    · unfold processSetMessage
      rw [hneed, if_pos hcond]
      simp
    · unfold processDeleteMessage
      rw [hneed, if_pos hcond]
      simp
  · intro t n cs hget
    have hhas : mhas t.pendingSubDirectories n = true := by rw [mhas, hget]; rfl
    have hneed := needSub_of_pending t n true ⟨cs⟩ hhas
    have hcond : (true = true) ∧ mget t.pendingSubDirectories n
        = some (SeqMsg.clientSequenceNumber ⟨cs⟩) := ⟨rfl, hget⟩
    constructor
    · unfold processCreateSubDirectoryMessage
      rw [hneed, if_pos hcond]
      simp
    · unfold processDeleteSubDirectoryMessage
      rw [hneed, if_pos hcond]
      simp
  · intro t cs hclear
    unfold processClearMessage
    rw [if_pos rfl, if_pos hclear]
    simp
  · exact fun c a ha =>
      ⟨(step_inbound_shrink c a ha).1, (step_inbound_shrink c a ha).2.1,
       (step_inbound_shrink c a ha).2.2.1⟩
  · exact run_preserves_pendingBound

/-- Trace 1: two local sets on the same key while attached.
Trace 2: a local set, a local clear, then the set's echo. -/
def c3TraceA : List (DirAction Nat) :=
  [DirAction.localSetA "k" 1, DirAction.localSetA "k" 2]

def c3TraceB : List (DirAction Nat) :=
  [DirAction.localSetA "k" 1, DirAction.localClearA,
   DirAction.inboundSet "k" none true 1]

/-- **C3** counterexample.  (a) The entry of the first `set` (client-seq 1)
does not remain until its echo: the second local set on the same key
overwrites it.  (b) Its echo then removes nothing (stored 2 ≠ message 1).
(c) With a pending local clear, even the echo matching the stored entry
removes nothing, so the entry outlives the echo. -/
theorem c3_counterexample :
    (run ⟨emptyNode "/", 1⟩ c3TraceA).tree.pendingKeys = [("k", 2)] ∧
    (run ⟨emptyNode "/", 1⟩
        (c3TraceA ++ [DirAction.inboundSet "k" none true 1])).tree.pendingKeys
      = [("k", 2)] ∧
    (run ⟨emptyNode "/", 1⟩ c3TraceB).tree.pendingKeys = [("k", 1)] :=
  ⟨rfl, rfl, rfl⟩

/-- Concrete instantiation of `c3_pending_lifecycle`. -/
def c3WitnessNode : DirTree Nat :=
  DirTree.node "/" [] [("k", 3)] [] (-1) []

theorem c3_witness :
    ((localSet (fun _ => ()) (emptyNode "/" : DirTree Nat) "k" 5 3).1).pendingKeys
      = mset (emptyNode "/" : DirTree Nat).pendingKeys "k" 3 ∧
    (processSetMessage c3WitnessNode "k" none true ⟨3⟩).1.pendingKeys
      = mdel c3WitnessNode.pendingKeys "k" ∧
    pendingBound (run ⟨emptyNode "/", 0⟩ [DirAction.localSetA "k" (5 : Nat)]).tree
      (run ⟨emptyNode "/", 0⟩ [DirAction.localSetA "k" (5 : Nat)]).nextCsn := by
  have h := c3_pending_lifecycle (V := Nat) (S := Unit)
  refine ⟨h.1 (fun _ => ()) (emptyNode "/") "k" 5 3 (by decide), ?_, ?_⟩
  · exact (h.2.2.2.2.2.1 c3WitnessNode "k" none 3 rfl rfl).1
  · refine h.2.2.2.2.2.2.2.2.2 ⟨emptyNode "/", 0⟩ [DirAction.localSetA "k" 5] ?_
    refine ⟨?_, ?_, Or.inl rfl⟩
    · intro p hp
      simp [emptyNode, DirTree.pendingKeys] at hp
    · intro p hp
      simp [emptyNode, DirTree.pendingSubDirectories] at hp

end FluidDir

namespace FluidDir

variable {V S : Type} {α : Type}

theorem splitChar_cons_eq (sep c : Char) (cs : List Char) (a : List Char)
    (b : List (List Char)) (h : splitChar sep cs = a :: b) :
    splitChar sep (c :: cs) = if c = sep then [] :: a :: b else (c :: a) :: b := by
  rw [splitChar, h]

theorem splitChar_ne_nil (sep : Char) (l : List Char) : splitChar sep l ≠ [] := by
  cases l with
  | nil => simp [splitChar]
  | cons c cs =>
    cases h : splitChar sep cs with
    | nil => exact absurd h (splitChar_ne_nil sep cs)
    | cons a b =>
      rw [splitChar_cons_eq sep c cs a b h]
      by_cases hc : c = sep
      · simp [hc]
      · simp [hc]

theorem splitChar_cons_sep (sep : Char) (l : List Char) :
    splitChar sep (sep :: l) = [] :: splitChar sep l := by
  cases h : splitChar sep l with
  | nil => exact absurd h (splitChar_ne_nil sep l)
  | cons a b =>
    rw [splitChar_cons_eq sep sep l a b h]
    simp

theorem splitChar_not_mem (sep : Char) (s : List Char) (h : sep ∉ s) :
    splitChar sep s = [s] := by
  induction s with
  | nil => rfl
  | cons c cs ih =>
    have hc : ¬ c = sep := fun he => h (he ▸ List.mem_cons_self c cs)
    have hcs : sep ∉ cs := fun hm => h (List.mem_cons_of_mem c hm)
    rw [splitChar_cons_eq sep c cs cs [] (ih hcs)]
    simp [hc]

theorem splitChar_append_sep (sep : Char) (s t : List Char) (h : sep ∉ s) :
    splitChar sep (s ++ sep :: t) = s :: splitChar sep t := by
  induction s with
  | nil =>
    simp only [List.nil_append]
    exact splitChar_cons_sep sep t
  | cons c cs ih =>
    have hc : ¬ c = sep := fun he => h (he ▸ List.mem_cons_self c cs)
    have hcs : sep ∉ cs := fun hm => h (List.mem_cons_of_mem c hm)
    rw [List.cons_append,
        splitChar_cons_eq sep c (cs ++ sep :: t) cs (splitChar sep t) (ih hcs)]
    simp [hc]

theorem splitChar_joinSegs (sep : Char) :
    ∀ segs : List (List Char), segs ≠ [] → (∀ s ∈ segs, sep ∉ s) →
      splitChar sep (joinSegs sep segs) = segs
  | [], h, _ => absurd rfl h
  | [s], _, hmem => by
    show splitChar sep s = [s]
    exact splitChar_not_mem sep s (hmem s (by simp))
  | s :: s2 :: rest, _, hmem => by
    show splitChar sep (s ++ sep :: joinSegs sep (s2 :: rest)) = s :: s2 :: rest
    rw [splitChar_append_sep sep s _ (hmem s (by simp))]
    rw [splitChar_joinSegs sep (s2 :: rest) (by simp)
      (fun x hx => hmem x (List.mem_cons_of_mem s hx))]

theorem splitChar_mem_not_sep (sep : Char) (l : List Char) :
    ∀ s ∈ splitChar sep l, sep ∉ s := by
  induction l with
  | nil =>
    intro s hs
    rw [splitChar] at hs
    rcases List.mem_singleton.mp hs with rfl
    simp
  | cons c cs ih =>
    intro s hs
    cases h : splitChar sep cs with
    | nil => exact absurd h (splitChar_ne_nil sep cs)
    | cons a b =>
      rw [splitChar_cons_eq sep c cs a b h] at hs
      by_cases hc : c = sep
      · rw [if_pos hc] at hs
        rcases List.mem_cons.mp hs with rfl | hs
        · simp
        · exact ih s (h ▸ hs)
      · rw [if_neg hc] at hs
        rcases List.mem_cons.mp hs with rfl | hs
        · intro hm
          rcases List.mem_cons.mp hm with he | hm
          · exact hc he.symm
          · exact ih a (h ▸ List.mem_cons_self a b) hm
        · exact ih s (h ▸ List.mem_cons_of_mem a hs)

theorem normSegsAux_eq_append :
    ∀ (l acc : List (List Char)), (∀ s ∈ l, s ≠ ['.'] ∧ s ≠ ['.', '.']) →
      normSegsAux acc l = acc ++ l
  | [], acc, _ => by simp [normSegsAux]
  | s :: rest, acc, h => by
    rw [normSegsAux]
    rw [if_neg (h s (List.mem_cons_self s rest)).1,
        if_neg (h s (List.mem_cons_self s rest)).2]
    rw [normSegsAux_eq_append rest (acc ++ [s])
      (fun x hx => h x (List.mem_cons_of_mem s hx))]
    simp

theorem normSegsAux_mem (P : List Char → Prop) :
    ∀ (l acc : List (List Char)), (∀ s ∈ acc, P s) →
      (∀ s ∈ l, s ≠ ['.'] → s ≠ ['.', '.'] → P s) →
      ∀ s ∈ normSegsAux acc l, P s
  | [], acc, hacc, _ => by
    rw [normSegsAux]
    exact hacc
  | s :: rest, acc, hacc, hl => by
    rw [normSegsAux]
    by_cases h1 : s = ['.']
    · rw [if_pos h1]
      exact normSegsAux_mem P rest acc hacc
        (fun x hx => hl x (List.mem_cons_of_mem s hx))
    · rw [if_neg h1]
      by_cases h2 : s = ['.', '.']
      · rw [if_pos h2]
        exact normSegsAux_mem P rest acc.dropLast
          (fun x hx => hacc x (List.dropLast_subset _ hx))
          (fun x hx => hl x (List.mem_cons_of_mem s hx))
      · rw [if_neg h2]
        exact normSegsAux_mem P rest (acc ++ [s])
          (fun x hx => by
            rcases List.mem_append.mp hx with h | h
            · exact hacc x h
            · rw [List.mem_singleton.mp h]
              exact hl s (List.mem_cons_self s rest) h1 h2)
          (fun x hx => hl x (List.mem_cons_of_mem s hx))

theorem segsOf_mem (x : String) : ∀ s ∈ segsOf x, s ≠ [] ∧ '/' ∉ s := by
  intro s hs
  unfold segsOf at hs
  have h2 := List.mem_filter.mp hs
  exact ⟨by simpa using h2.2, splitChar_mem_not_sep '/' x.data s h2.1⟩

theorem segsOf_renderAbs (ns : List (List Char))
    (h : ∀ s ∈ ns, s ≠ [] ∧ '/' ∉ s) : segsOf (renderAbs ns) = ns := by
  cases ns with
  | nil => rfl
  | cons s rest =>
    unfold segsOf renderAbs
    rw [show (String.mk ('/' :: joinSegs '/' (s :: rest))).data
        = '/' :: joinSegs '/' (s :: rest) from rfl]
    rw [splitChar_cons_sep]
    rw [splitChar_joinSegs '/' (s :: rest) (by simp)
      (fun x hx => (h x hx).2)]
    rw [List.filter_cons_of_neg (by simp)]
    exact List.filter_eq_self.mpr (fun x hx => by simpa using (h x hx).1)

theorem posixResolve_idem (base p : String) :
    posixResolve "/" (posixResolve base p) = posixResolve base p := by
  unfold posixResolve
  have hmem : ∀ s ∈ (if isAbsolute p then segsOf p
      else segsOf base ++ segsOf p), s ≠ [] ∧ '/' ∉ s := by
    intro s hs
    by_cases hab : isAbsolute p
    · rw [if_pos hab] at hs
      exact segsOf_mem p s hs
    · rw [if_neg hab] at hs
      rcases List.mem_append.mp hs with h | h
      · exact segsOf_mem base s h
      · exact segsOf_mem p s h
  have hns := normSegsAux_mem
    (fun s => s ≠ [] ∧ '/' ∉ s ∧ s ≠ ['.'] ∧ s ≠ ['.', '.'])
    (if isAbsolute p then segsOf p else segsOf base ++ segsOf p) []
    (by intro s hs; simp at hs)
    (fun s hs h1 h2 => ⟨(hmem s hs).1, (hmem s hs).2, h1, h2⟩)
  have habs : isAbsolute (renderAbs (normSegsAux []
      (if isAbsolute p then segsOf p else segsOf base ++ segsOf p))) = true := rfl
  rw [if_pos habs]
  rw [segsOf_renderAbs _ (fun s hs => ⟨(hns s hs).1, (hns s hs).2.1⟩)]
  rw [normSegsAux_eq_append _ [] (fun s hs => ⟨(hns s hs).2.2.1, (hns s hs).2.2.2⟩)]
  rw [List.nil_append]

/-- **C9**.  `SubDirectory.getWorkingDirectory(p)` resolves `p` against the
node's `absolutePath` via POSIX resolve and then walks the children maps
component by component (returning `undefined` on a missing component —
`walkResolved` is exactly that single-resolution walk); consequently it
equals the root `SharedDirectory.getWorkingDirectory` applied to the
absolute resolution of `p` against the node's `absolutePath`. -/
theorem c9_getWorkingDirectory_path_law (root : DirTree V)
    (nodeAbsolutePath p : String) :
    subDirGetWorkingDirectory root nodeAbsolutePath p
      = walkResolved root (posixResolve nodeAbsolutePath p) ∧
    subDirGetWorkingDirectory root nodeAbsolutePath p
      = sharedDirGetWorkingDirectory root (posixResolve nodeAbsolutePath p) := by
  constructor
  · unfold subDirGetWorkingDirectory sharedDirGetWorkingDirectory walkResolved
    rw [posixResolve_idem nodeAbsolutePath p]
  · rfl

end FluidDir

namespace FluidDir

variable {V S : Type}

/-- **C6**.  Applying an inbound sequenced message through the
prepare/process pipeline never throws (the result is always `some`), a
message whose operation type is not one of the six registered types is
ignored (rejected prepare, no state change, no events), an operation
whose path does not resolve to an existing SubDirectory is dropped
without mutating state (for `act` via its rejected prepare), and a
non-operation envelope is ignored as well. -/
theorem c6_inbound_total (makeLocal : S → V)
    (getOpHandler : V → String → Option (V → V)) (root : DirTree V)
    (isLocal : Bool) (m : InMsg S) :
    (applyInbound makeLocal getOpHandler root isLocal m).isSome = true ∧
    (handlerRegistered m.contents = false →
      applyInbound makeLocal getOpHandler root isLocal m = some (root, [])) ∧
    (∀ pa, m.contents.opPath = some pa →
      sharedDirGetWorkingDirectory root pa = none →
      applyInbound makeLocal getOpHandler root isLocal m = some (root, [])) ∧
    (m.msgType ≠ "op" →
      applyInbound makeLocal getOpHandler root isLocal m = some (root, [])) := by
  by_cases hty : m.msgType = "op"
  · cases hc : m.contents with
    | set key path v =>
      refine ⟨?_, ?_, ?_, fun h => absurd hty h⟩
      · cases isLocal <;>
          simp [applyInbound, prepareCore, processCore, hty, hc]
      · intro h
        simp [handlerRegistered] at h
      · intro pa hpa hmiss
        simp only [DirOp.opPath, Option.some.injEq] at hpa
        subst hpa
        cases isLocal <;>
          simp [applyInbound, prepareCore, processCore, hty, hc,
            processWithNode, hmiss]
    | delete key path =>
      refine ⟨?_, ?_, ?_, fun h => absurd hty h⟩
      · simp [applyInbound, prepareCore, processCore, hty, hc]
      · intro h
        simp [handlerRegistered] at h
      · intro pa hpa hmiss
        simp only [DirOp.opPath, Option.some.injEq] at hpa
        subst hpa
        simp [applyInbound, prepareCore, processCore, hty, hc,
          processWithNode, hmiss]
    | clear path =>
      refine ⟨?_, ?_, ?_, fun h => absurd hty h⟩
      · simp [applyInbound, prepareCore, processCore, hty, hc]
      · intro h
        simp [handlerRegistered] at h
      · intro pa hpa hmiss
        simp only [DirOp.opPath, Option.some.injEq] at hpa
        subst hpa
        simp [applyInbound, prepareCore, processCore, hty, hc,
          processWithNode, hmiss]
    | createSubDirectory path name =>
      refine ⟨?_, ?_, ?_, fun h => absurd hty h⟩
      · simp [applyInbound, prepareCore, processCore, hty, hc]
      · intro h
        simp [handlerRegistered] at h
      · intro pa hpa hmiss
        simp only [DirOp.opPath, Option.some.injEq] at hpa
        subst hpa
        simp [applyInbound, prepareCore, processCore, hty, hc,
          processWithNode, hmiss]
    | deleteSubDirectory path name =>
      refine ⟨?_, ?_, ?_, fun h => absurd hty h⟩
      · simp [applyInbound, prepareCore, processCore, hty, hc]
      · intro h
        simp [handlerRegistered] at h
      · intro pa hpa hmiss
        simp only [DirOp.opPath, Option.some.injEq] at hpa
        subst hpa
        simp [applyInbound, prepareCore, processCore, hty, hc,
          processWithNode, hmiss]
    | act key path opName v =>
      refine ⟨?_, ?_, ?_, fun h => absurd hty h⟩
      · cases h1 : sharedDirGetWorkingDirectory root path with
        | none => simp [applyInbound, prepareCore, hty, hc, h1]
        | some nd =>
          cases h2 : flatGet nd.storage key with
          | none => simp [applyInbound, prepareCore, hty, hc, h1, h2]
          | some lv =>
            cases h3 : getOpHandler lv opName with
            | none => simp [applyInbound, prepareCore, hty, hc, h1, h2, h3]
            | some hdl =>
              simp [applyInbound, prepareCore, processCore, hty, hc, h1, h2, h3]
      · intro h
        simp [handlerRegistered] at h
      · intro pa hpa hmiss
        simp only [DirOp.opPath, Option.some.injEq] at hpa
        subst hpa
        simp [applyInbound, prepareCore, hty, hc, hmiss]
    | other ty =>
      refine ⟨?_, ?_, ?_, fun h => absurd hty h⟩
      · simp [applyInbound, prepareCore, hty, hc]
      · intro _
        simp [applyInbound, prepareCore, hty, hc]
      · intro pa hpa _
        simp [DirOp.opPath] at hpa
  · refine ⟨?_, ?_, ?_, ?_⟩ <;>
      first
        | (intro h
           simp [applyInbound, prepareCore, hty])
        | (intro pa hpa hmiss
           simp [applyInbound, prepareCore, hty])
        | simp [applyInbound, prepareCore, hty]

end FluidDir

namespace FluidDir

/-- Concrete instantiation of `c6_inbound_total`. -/
def c6Root : DirTree Nat :=
  DirTree.node "/" [("k", some 1)] [] [] (-1) []

theorem c6_witness :
    applyInbound (fun _ : Unit => (0 : Nat)) (fun _ _ => none) c6Root true
      ⟨"op", 5, DirOp.other "weird"⟩ = some (c6Root, []) ∧
    applyInbound (fun _ : Unit => (0 : Nat)) (fun _ _ => none) c6Root false
      ⟨"op", 5, DirOp.set "k" "/missing" ()⟩ = some (c6Root, []) ∧
    applyInbound (fun _ : Unit => (0 : Nat)) (fun _ _ => none) c6Root false
      ⟨"attach", 5, DirOp.clear "/"⟩ = some (c6Root, []) := by
  refine ⟨?_, ?_, ?_⟩
  · exact (c6_inbound_total (fun _ : Unit => (0 : Nat)) (fun _ _ => none)
      c6Root true ⟨"op", 5, DirOp.other "weird"⟩).2.1 rfl
  · exact (c6_inbound_total (fun _ : Unit => (0 : Nat)) (fun _ _ => none)
      c6Root false ⟨"op", 5, DirOp.set "k" "/missing" ()⟩).2.2.1
      "/missing" rfl rfl
  · exact (c6_inbound_total (fun _ : Unit => (0 : Nat)) (fun _ _ => none)
      c6Root false ⟨"attach", 5, DirOp.clear "/"⟩).2.2.2 (by decide)

end FluidDir

namespace FluidMap

open FluidDir (mget mhas mset mdel)

variable {J : Type}

theorem nameChunks_append (start : Nat)
    (ps : List (List (String × ParsedValue J))) (b : List (String × ParsedValue J)) :
    nameChunks start (ps ++ [b])
      = nameChunks start ps
          ++ [(blobName (start + ps.length), SnapBlob.chunk b)] := by
  induction ps generalizing start with
  | nil => simp [nameChunks]
  | cons p rest ih =>
    rw [List.cons_append, nameChunks, nameChunks, ih (start + 1), List.length_cons,
        show start + 1 + rest.length = start + (rest.length + 1) from by omega]
    simp

theorem snapshotStep_chunkToSnap (parse : String → J) (cs : ChunkState J)
    (kv : String × SerializedValue) :
    snapshotStep parse (chunkToSnap cs) kv
      = chunkToSnap (chunkStepAmended parse cs kv) := by
  by_cases hsep : truthy kv.2.value = true ∧ 8192 ≤ valLen kv.2.value
  · simp only [snapshotStep, chunkStepAmended, chunkToSnap, if_pos hsep]
    simp [nameChunks_append, List.range'_concat, List.length_append]
  · simp only [snapshotStep, chunkStepAmended, chunkToSnap, if_neg hsep]
    by_cases hsz : 16384 < cs.runningSize + kv.2.type.length + 21 +
        (if truthy kv.2.value = true then valLen kv.2.value else 0)
    · simp only [if_pos hsz]
      simp [nameChunks_append, List.range'_concat, List.length_append]
    · simp only [if_neg hsz]

theorem snapshot_foldl_chunk (parse : String → J) :
    ∀ (data : List (String × SerializedValue)) (cs : ChunkState J),
      data.foldl (snapshotStep parse) (chunkToSnap cs)
        = chunkToSnap (data.foldl (chunkStepAmended parse) cs)
  | [], _ => rfl
  | kv :: rest, cs => by
    rw [List.foldl_cons, List.foldl_cons, snapshotStep_chunkToSnap parse cs kv]
    exact snapshot_foldl_chunk parse rest _

theorem snapshot_eq_snapshotAmended (parse : String → J)
    (data : List (String × SerializedValue)) :
    snapshot parse data = snapshotAmended parse data := by
  unfold snapshot snapshotAmended renderChunks
  rw [show (⟨0, 0, [], [], []⟩ : SnapState J)
      = chunkToSnap (⟨[], [], 0⟩ : ChunkState J) from rfl]
  rw [snapshot_foldl_chunk parse data ⟨[], [], 0⟩]
  rfl

/-- **C4** (amended).  `SharedMap.snapshot` partitions exactly as the
claim describes — each entry with a truthy payload of length at least
8192 alone in its own `blob<N>` with `N` assigned in creation order,
every other entry accumulated into a rolling header blob that is flushed
as `blob<N>` before adding an entry that would push the running size
estimate over 16384, the final blob named `header` carrying the auxiliary
names in the order written together with the remaining content — with
the one amendment that the running estimate is reset to zero at a flush
(the triggering entry's own estimate is not carried into the fresh
rolling blob's counter). -/
theorem c4_snapshot_partitioning (parse : String → J)
    (data : List (String × SerializedValue)) :
    snapshot parse data = snapshotAmended parse data :=
  snapshot_eq_snapshotAmended parse data

/-- Five properties whose `type` string has length 8000 and whose payload
is absent: each contributes a size estimate of 8021 to the header blob. -/
def bigType : String :=
  String.mk (List.replicate 8000 'a')

def c4Data : List (String × SerializedValue) :=
  [("k1", ⟨bigType, none⟩), ("k2", ⟨bigType, none⟩), ("k3", ⟨bigType, none⟩),
   ("k4", ⟨bigType, none⟩), ("k5", ⟨bigType, none⟩)]

theorem bigType_length : bigType.length = 8000 := by
  show (List.replicate 8000 'a').length = 8000
  exact List.length_replicate 8000 'a'

theorem c4_cex_code (T : String) (hT : T.length = 8000) :
    headBlobsOf (snapshot (fun _ : String => Unit.unit)
      [("k1", ⟨T, none⟩), ("k2", ⟨T, none⟩), ("k3", ⟨T, none⟩),
       ("k4", ⟨T, none⟩), ("k5", ⟨T, none⟩)]) = some ["blob0"] := by
  have s1 : snapshotStep (fun _ : String => Unit.unit)
      ⟨0, 0, [], [], []⟩ ("k1", ⟨T, none⟩)
      = ⟨8021, 0, [("k1", ⟨T, none⟩)], [], []⟩ := by
    simp only [snapshotStep, truthy, valLen, hT, parsedOf]
    norm_num [FluidDir.mset, FluidDir.mhas, FluidDir.mget] <;> first
      | decide
      | simp
  have s2 : snapshotStep (fun _ : String => Unit.unit)
      ⟨8021, 0, [("k1", ⟨T, none⟩)], [], []⟩ ("k2", ⟨T, none⟩)
      = ⟨16042, 0, [("k1", ⟨T, none⟩), ("k2", ⟨T, none⟩)], [], []⟩ := by
    simp only [snapshotStep, truthy, valLen, hT, parsedOf]
    norm_num [FluidDir.mset, FluidDir.mhas, FluidDir.mget] <;> first
      | decide
      | simp
  have s3 : snapshotStep (fun _ : String => Unit.unit)
      ⟨16042, 0, [("k1", ⟨T, none⟩), ("k2", ⟨T, none⟩)], [], []⟩
      ("k3", ⟨T, none⟩)
      = ⟨0, 1, [("k3", ⟨T, none⟩)], ["blob0"],
         [("blob0", SnapBlob.chunk [("k1", ⟨T, none⟩), ("k2", ⟨T, none⟩)])]⟩ := by
    simp only [snapshotStep, truthy, valLen, hT, parsedOf]
    norm_num [FluidDir.mset, FluidDir.mhas, FluidDir.mget, blobName,
      natRender, natRenderAux] <;> first
      | decide
      | simp
  have s4 : snapshotStep (fun _ : String => Unit.unit)
      ⟨0, 1, [("k3", ⟨T, none⟩)], ["blob0"],
       [("blob0", SnapBlob.chunk [("k1", ⟨T, none⟩), ("k2", ⟨T, none⟩)])]⟩
      ("k4", ⟨T, none⟩)
      = ⟨8021, 1, [("k3", ⟨T, none⟩), ("k4", ⟨T, none⟩)], ["blob0"],
         [("blob0", SnapBlob.chunk [("k1", ⟨T, none⟩), ("k2", ⟨T, none⟩)])]⟩ := by
    simp only [snapshotStep, truthy, valLen, hT, parsedOf]
    norm_num [FluidDir.mset, FluidDir.mhas, FluidDir.mget] <;> first
      | decide
      | simp
  have s5 : snapshotStep (fun _ : String => Unit.unit)
      ⟨8021, 1, [("k3", ⟨T, none⟩), ("k4", ⟨T, none⟩)], ["blob0"],
       [("blob0", SnapBlob.chunk [("k1", ⟨T, none⟩), ("k2", ⟨T, none⟩)])]⟩
      ("k5", ⟨T, none⟩)
      = ⟨16042, 1,
         [("k3", ⟨T, none⟩), ("k4", ⟨T, none⟩), ("k5", ⟨T, none⟩)], ["blob0"],
         [("blob0", SnapBlob.chunk [("k1", ⟨T, none⟩), ("k2", ⟨T, none⟩)])]⟩ := by
    simp only [snapshotStep, truthy, valLen, hT, parsedOf]
    norm_num [FluidDir.mset, FluidDir.mhas, FluidDir.mget] <;> first
      | decide
      | simp
  simp only [snapshot, List.foldl_cons, List.foldl_nil]
  rw [s1, s2, s3, s4, s5]
  norm_num [headBlobsOf, FluidDir.mget, blobName, natRender, natRenderAux] <;> first
      | decide
      | simp

theorem c4_cex_claim (T : String) (hT : T.length = 8000) :
    headBlobsOf (snapshotClaim (fun _ : String => Unit.unit)
      [("k1", ⟨T, none⟩), ("k2", ⟨T, none⟩), ("k3", ⟨T, none⟩),
       ("k4", ⟨T, none⟩), ("k5", ⟨T, none⟩)]) = some ["blob0", "blob1"] := by
  have s1 : chunkStepClaim (fun _ : String => Unit.unit)
      ⟨[], [], 0⟩ ("k1", ⟨T, none⟩)
      = ⟨[], [("k1", ⟨T, none⟩)], 8021⟩ := by
    simp only [chunkStepClaim, truthy, valLen, hT, parsedOf]
    norm_num [FluidDir.mset, FluidDir.mhas, FluidDir.mget] <;> first
      | decide
      | simp
  have s2 : chunkStepClaim (fun _ : String => Unit.unit)
      ⟨[], [("k1", ⟨T, none⟩)], 8021⟩ ("k2", ⟨T, none⟩)
      = ⟨[], [("k1", ⟨T, none⟩), ("k2", ⟨T, none⟩)], 16042⟩ := by
    simp only [chunkStepClaim, truthy, valLen, hT, parsedOf]
    norm_num [FluidDir.mset, FluidDir.mhas, FluidDir.mget] <;> first
      | decide
      | simp
  have s3 : chunkStepClaim (fun _ : String => Unit.unit)
      ⟨[], [("k1", ⟨T, none⟩), ("k2", ⟨T, none⟩)], 16042⟩ ("k3", ⟨T, none⟩)
      = ⟨[[("k1", ⟨T, none⟩), ("k2", ⟨T, none⟩)]], [("k3", ⟨T, none⟩)], 8021⟩ := by
    simp only [chunkStepClaim, truthy, valLen, hT, parsedOf]
    norm_num [FluidDir.mset, FluidDir.mhas, FluidDir.mget] <;> first
      | decide
      | simp
  have s4 : chunkStepClaim (fun _ : String => Unit.unit)
      ⟨[[("k1", ⟨T, none⟩), ("k2", ⟨T, none⟩)]], [("k3", ⟨T, none⟩)], 8021⟩
      ("k4", ⟨T, none⟩)
      = ⟨[[("k1", ⟨T, none⟩), ("k2", ⟨T, none⟩)]],
         [("k3", ⟨T, none⟩), ("k4", ⟨T, none⟩)], 16042⟩ := by
    simp only [chunkStepClaim, truthy, valLen, hT, parsedOf]
    norm_num [FluidDir.mset, FluidDir.mhas, FluidDir.mget] <;> first
      | decide
      | simp
  have s5 : chunkStepClaim (fun _ : String => Unit.unit)
      ⟨[[("k1", ⟨T, none⟩), ("k2", ⟨T, none⟩)]],
       [("k3", ⟨T, none⟩), ("k4", ⟨T, none⟩)], 16042⟩ ("k5", ⟨T, none⟩)
      = ⟨[[("k1", ⟨T, none⟩), ("k2", ⟨T, none⟩)],
          [("k3", ⟨T, none⟩), ("k4", ⟨T, none⟩)]], [("k5", ⟨T, none⟩)], 8021⟩ := by
    simp only [chunkStepClaim, truthy, valLen, hT, parsedOf]
    norm_num [FluidDir.mset, FluidDir.mhas, FluidDir.mget] <;> first
      | decide
      | simp
  simp only [snapshotClaim, List.foldl_cons, List.foldl_nil]
  rw [s1, s2, s3, s4, s5]
  norm_num [headBlobsOf, renderChunks, nameChunks, List.range',
    FluidDir.mget, blobName, natRender, natRenderAux] <;> first
      | decide
      | simp

/-- **C4** counterexample: under the claim's flush rule (the running size
estimate is the sum of the estimates of the entries accumulated in the
rolling blob) `c4Data` yields two auxiliary blobs, but the code emits only
one: after flushing `blob0` the counter restarts at zero without the
triggering entry's 8021, so `k3`, `k4`, `k5` (estimates summing to
24063 > 16384) all stay in the final header content. -/
theorem c4_counterexample :
    headBlobsOf (snapshot (fun _ : String => Unit.unit) c4Data)
      = some ["blob0"] ∧
    headBlobsOf (snapshotClaim (fun _ : String => Unit.unit) c4Data)
      = some ["blob0", "blob1"] ∧
    snapshot (fun _ : String => Unit.unit) c4Data
      ≠ snapshotClaim (fun _ : String => Unit.unit) c4Data := by
  have h1 : headBlobsOf (snapshot (fun _ : String => Unit.unit) c4Data)
      = some ["blob0"] := c4_cex_code bigType bigType_length
  have h2 : headBlobsOf (snapshotClaim (fun _ : String => Unit.unit) c4Data)
      = some ["blob0", "blob1"] := c4_cex_claim bigType bigType_length
  refine ⟨h1, h2, ?_⟩
  intro he
  rw [he, h2] at h1
  simp at h1

end FluidMap

namespace FluidMap

open FluidDir (mget mhas mset mdel mget_cons mget_append)

variable {J : Type}

theorem digitVal_char (d : Nat) (h : d < 10) :
    digitVal (Char.ofNat (48 + d)) = d := by
  interval_cases d <;> decide

theorem parseDigits_append (a : List Char) (c : Char) :
    parseDigits (a ++ [c]) = parseDigits a * 10 + digitVal c := by
  unfold parseDigits
  rw [List.foldl_append]
  rfl

theorem parseDigits_natRenderAux :
    ∀ (fuel n : Nat), n < fuel → parseDigits (natRenderAux fuel n) = n
  | 0, n, h => absurd h (Nat.not_lt_zero n)
  | fuel + 1, n, h => by
    rw [natRenderAux]
    by_cases h10 : n < 10
    · rw [if_pos h10]
      simp [parseDigits, digitVal_char n h10]
    · rw [if_neg h10]
      rw [parseDigits_append]
      have hdiv : n / 10 < fuel := by
        have h1 : n / 10 < n := Nat.div_lt_self (by omega) (by omega)
        omega
      rw [parseDigits_natRenderAux fuel (n / 10) hdiv]
      rw [digitVal_char (n % 10) (Nat.mod_lt n (by omega))]
      omega

theorem parseDigits_natRender (n : Nat) : parseDigits (natRender n) = n :=
  parseDigits_natRenderAux (n + 1) n (Nat.lt_succ_self n)

theorem blobName_inj (a b : Nat) (h : blobName a = blobName b) : a = b := by
  unfold blobName at h
  have hd : "blob".data ++ natRender a = "blob".data ++ natRender b :=
    congrArg String.data h
  have hr : natRender a = natRender b := List.append_cancel_left hd
  rw [← parseDigits_natRender a, ← parseDigits_natRender b, hr]

theorem blobName_ne_header (n : Nat) : blobName n ≠ "header" := by
  intro h
  have hd : 'b' :: ('l' :: ('o' :: ('b' :: natRender n)))
      = ['h', 'e', 'a', 'd', 'e', 'r'] := congrArg String.data h
  injection hd with h1 _
  exact absurd h1 (by decide)

theorem mget_nameChunks_header (start : Nat) :
    ∀ ps : List (List (String × ParsedValue J)),
      mget (nameChunks start ps) "header" = none
  | [] => rfl
  | p :: rest => by
    rw [nameChunks, mget_cons, if_neg (blobName_ne_header start)]
    exact mget_nameChunks_header (start + 1) rest

theorem mget_nameChunks (start : Nat) :
    ∀ (ps : List (List (String × ParsedValue J))) (i : Nat) (h : i < ps.length),
      mget (nameChunks start ps) (blobName (start + i))
        = some (SnapBlob.chunk (ps.get ⟨i, h⟩))
  | [], i, h => absurd h (by simp)
  | p :: rest, i, h => by
    rw [nameChunks, mget_cons]
    cases i with
    | zero =>
      rw [if_pos (by rw [Nat.add_zero])]
      rfl
    | succ j =>
      have hne : blobName start ≠ blobName (start + (j + 1)) := by
        intro he
        have := blobName_inj _ _ he
        omega
      rw [if_neg hne,
          show start + (j + 1) = (start + 1) + j from by omega]
      exact mget_nameChunks (start + 1) rest j (by simpa using h)

end FluidMap

namespace FluidDir

variable {α : Type}

theorem mem_keys_of_mhas {m : List (String × α)} {k : String}
    (h : mhas m k = true) : k ∈ m.map Prod.fst := by
  induction m with
  | nil => simp [mhas, mget] at h
  | cons p rest ih =>
    obtain ⟨k0, v0⟩ := p
    by_cases hp : k0 = k
    · simp [hp]
    · have : mhas rest k = true := by simpa [mhas, mget, hp] using h
      simp [ih this]

theorem mget_eq_none_iff {m : List (String × α)} {k : String} :
    mget m k = none ↔ k ∉ m.map Prod.fst := by
  induction m with
  | nil => simp [mget]
  | cons p rest ih =>
    obtain ⟨k0, v0⟩ := p
    by_cases hp : k0 = k
    · subst hp
      simp [mget]
    · simp [mget, hp, ih, Ne.symm hp]

theorem mem_of_mget {m : List (String × α)} {k : String} {v : α}
    (h : mget m k = some v) : (k, v) ∈ m := by
  induction m with
  | nil => simp [mget] at h
  | cons p rest ih =>
    obtain ⟨k0, v0⟩ := p
    by_cases hp : k0 = k
    · subst hp
      rw [mget_cons, if_pos rfl] at h
      obtain rfl : v0 = v := Option.some.inj h
      simp
    · rw [mget_cons, if_neg hp] at h
      exact List.mem_cons_of_mem _ (ih h)

theorem mget_of_mem_nodup {m : List (String × α)} {k : String} {v : α}
    (hnd : (m.map Prod.fst).Nodup) (h : (k, v) ∈ m) : mget m k = some v := by
  induction m with
  | nil => simp at h
  | cons p rest ih =>
    obtain ⟨k0, v0⟩ := p
    rw [List.map_cons, List.nodup_cons] at hnd
    rcases List.mem_cons.mp h with he | hm
    · injection he with h1 h2
      subst h1
      subst h2
      rw [mget_cons, if_pos rfl]
    · have hne : ¬ k0 = k := by
        intro hkk
        subst hkk
        exact hnd.1 (by
          have : (k0, v) ∈ rest := hm
          exact List.mem_map.mpr ⟨(k0, v), this, rfl⟩)
      rw [mget_cons, if_neg hne]
      exact ih hnd.2 hm

end FluidDir

namespace FluidMap

open FluidDir (mget mhas mset mdel mget_cons mget_append mset_of_not_has
  mem_keys_of_mhas mget_eq_none_iff mem_of_mget mget_of_mem_nodup)

variable {J : Type}

theorem populate_eq_append :
    ∀ (b st : List (String × ParsedValue J)),
      (b.map Prod.fst).Nodup →
      (∀ k, mhas st k = true → k ∉ b.map Prod.fst) →
      populateFromSerializable st b = st ++ b
  | [], st, _, _ => by simp [populateFromSerializable]
  | (k, v) :: rest, st, hnd, hfresh => by
    rw [List.map_cons, List.nodup_cons] at hnd
    have hk : mhas st k = false := by
      cases hh : mhas st k
      · rfl
      · exact absurd (List.mem_cons_self _ _) (hfresh k hh)
    show populateFromSerializable (mset st k v) rest = st ++ (k, v) :: rest
    rw [mset_of_not_has v hk]
    rw [populate_eq_append rest (st ++ [(k, v)]) hnd.2 (fun k2 hk2 => by
      rw [FluidDir.mhas, mget_append] at hk2
      cases hg : mget st k2 with
      | some w =>
        have h2 : mhas st k2 = true := by rw [FluidDir.mhas, hg]; rfl
        exact fun hmem => hfresh k2 h2 (List.mem_cons_of_mem _ hmem)
      | none =>
        rw [hg] at hk2
        have hkk : k = k2 := by
          by_cases hkk : k = k2
          · exact hkk
          · simp [mget, hkk] at hk2
        subst hkk
        exact hnd.1)]
    simp

end FluidMap

namespace FluidDir

variable {α : Type}

theorem mget_eq_of_perm {a b : List (String × α)} (hp : a.Perm b)
    (hnd : (b.map Prod.fst).Nodup) (k : String) : mget a k = mget b k := by
  have hnda : (a.map Prod.fst).Nodup := ((hp.map Prod.fst).symm).nodup hnd
  cases hb : mget b k with
  | none =>
    rw [mget_eq_none_iff]
    intro hm
    exact (mget_eq_none_iff.mp hb) ((hp.map Prod.fst).mem_iff.mp hm)
  | some v =>
    exact mget_of_mem_nodup hnda (hp.mem_iff.mpr (mem_of_mget hb))

end FluidDir

namespace FluidMap

open FluidDir (mget mhas mset mdel mget_cons mget_append mset_of_not_has
  mem_keys_of_mhas mget_eq_none_iff mem_of_mget mget_of_mem_nodup mget_eq_of_perm)

variable {J : Type}

theorem nameChunks_split :
    ∀ (start : Nat) (a b : List (List (String × ParsedValue J))),
      nameChunks start (a ++ b)
        = nameChunks start a ++ nameChunks (start + a.length) b
  | start, [], b => by simp [nameChunks]
  | start, p :: rest, b => by
    rw [List.cons_append, nameChunks, nameChunks_split (start + 1) rest b,
        List.length_cons,
        show start + (rest.length + 1) = start + 1 + rest.length from by omega]
    rfl

theorem mget_nameChunks_ge (n : Nat) :
    ∀ (start : Nat) (ps : List (List (String × ParsedValue J))),
      start + ps.length ≤ n →
      mget (nameChunks start ps) (blobName n) = none
  | _, [], _ => rfl
  | start, p :: rest, h => by
    rw [List.length_cons] at h
    have hne : ¬ blobName start = blobName n := by
      intro he
      have := blobName_inj _ _ he
      omega
    rw [nameChunks, mget_cons, if_neg hne]
    exact mget_nameChunks_ge n (start + 1) rest (by omega)

theorem load_fold (hd : SnapBlob J) :
    ∀ (rest front : List (List (String × ParsedValue J)))
      (st : List (String × ParsedValue J)),
      ((st ++ rest.flatten).map Prod.fst).Nodup →
      ((List.range' front.length rest.length).map blobName).foldl
        (fun acc name =>
          match acc, mget (nameChunks 0 (front ++ rest) ++ [("header", hd)]) name with
          | some s, some (SnapBlob.chunk b) => some (populateFromSerializable s b)
          | _, _ => none)
        (some st) = some (st ++ rest.flatten)
  | [], front, st, _ => by simp
  | p :: rest, front, st, hnd => by
    rw [List.flatten_cons] at hnd
    have hmap : ((st.map Prod.fst)
        ++ (p.map Prod.fst ++ (rest.flatten).map Prod.fst)).Nodup := by
      simpa [List.map_append] using hnd
    have hndp : (p.map Prod.fst).Nodup :=
      (List.nodup_append.mp (List.nodup_append.mp hmap).2.1).1
    have hfreshp : ∀ k, mhas st k = true → k ∉ p.map Prod.fst := fun k hk hm =>
      (List.disjoint_of_nodup_append hmap) (mem_keys_of_mhas hk)
        (List.mem_append_left _ hm)
    have hlook : mget (nameChunks 0 (front ++ p :: rest) ++ [("header", hd)])
        (blobName front.length) = some (SnapBlob.chunk p) := by
      rw [mget_append, nameChunks_split 0 front (p :: rest), Nat.zero_add,
          mget_append, mget_nameChunks_ge front.length 0 front (by omega),
          nameChunks, mget_cons, if_pos rfl]
    rw [List.length_cons, List.range'_succ, List.map_cons, List.foldl_cons]
    simp only [hlook]
    rw [populate_eq_append p st hndp hfreshp]
    have hnd2 : (((st ++ p) ++ rest.flatten).map Prod.fst).Nodup := by
      rwa [List.append_assoc]
    have hrec := load_fold hd rest (front ++ [p]) (st ++ p) hnd2
    rw [List.length_append, List.length_singleton, List.append_assoc,
        List.singleton_append] at hrec
    rw [List.flatten_cons, ← List.append_assoc]
    exact hrec

theorem blobEntries_nameChunks :
    ∀ (start : Nat) (ps : List (List (String × ParsedValue J))),
      (nameChunks start ps).map (fun p => blobEntries p.2) = ps
  | _, [] => rfl
  | start, p :: rest => by
    rw [nameChunks, List.map_cons, blobEntries_nameChunks (start + 1) rest]
    rfl

theorem allEntries_renderChunks (cs : ChunkState J) :
    allEntries (renderChunks cs) = chunkEntries cs := by
  rw [allEntries, renderChunks, List.map_append, List.flatten_append,
      blobEntries_nameChunks]
  simp [chunkEntries, blobEntries]

end FluidMap

namespace FluidMap

open FluidDir (mget mhas mset mdel mget_cons mget_append mset_of_not_has
  mem_keys_of_mhas mget_eq_none_iff mem_of_mget mget_of_mem_nodup mget_eq_of_perm)

variable {J : Type}

theorem chunkEntries_step (parse : String → J) (cs : ChunkState J)
    (kv : String × SerializedValue)
    (hf : kv.1 ∉ (chunkEntries cs).map Prod.fst) :
    (chunkEntries (chunkStepAmended parse cs kv)).Perm
      (chunkEntries cs ++ [(kv.1, parsedOf parse kv.2)]) := by
  by_cases h1 : truthy kv.2.value = true ∧ 8192 ≤ valLen kv.2.value
  · simp only [chunkStepAmended, chunkEntries, if_pos h1]
    rw [List.flatten_append]
    simp only [List.flatten_cons, List.flatten_nil, List.append_nil]
    rw [List.append_assoc, List.append_assoc]
    exact List.Perm.append_left _ List.perm_append_comm
  · by_cases h2 : 16384 < cs.runningSize + kv.2.type.length + 21 +
        (if truthy kv.2.value = true then valLen kv.2.value else 0)
    · simp only [chunkStepAmended, chunkEntries, if_neg h1, if_pos h2]
      rw [List.flatten_append]
      simp only [List.flatten_cons, List.flatten_nil, List.append_nil]
      rw [List.append_assoc]
    · simp only [chunkStepAmended, chunkEntries, if_neg h1, if_neg h2]
      have hnr : kv.1 ∉ cs.rolling.map Prod.fst := fun hm =>
        hf (by
          rw [chunkEntries, List.map_append]
          exact List.mem_append_right _ hm)
      have hk : mhas cs.rolling kv.1 = false := by
        cases hh : mhas cs.rolling kv.1
        · rfl
        · exact absurd (mem_keys_of_mhas hh) hnr
      rw [mset_of_not_has _ hk, ← List.append_assoc]

theorem chunk_foldl_perm (parse : String → J) :
    ∀ (data : List (String × SerializedValue)) (cs : ChunkState J),
      ((chunkEntries cs).map Prod.fst ++ data.map Prod.fst).Nodup →
      (chunkEntries (data.foldl (chunkStepAmended parse) cs)).Perm
        (chunkEntries cs ++ data.map (fun kv => (kv.1, parsedOf parse kv.2)))
  | [], cs, _ => by simp
  | kv :: rest, cs, hnd => by
    rw [List.map_cons] at hnd
    have hf : kv.1 ∉ (chunkEntries cs).map Prod.fst := fun hm =>
      (List.disjoint_of_nodup_append hnd) hm (List.mem_cons_self _ _)
    have hstep := chunkEntries_step parse cs kv hf
    have hkeys : ((chunkEntries (chunkStepAmended parse cs kv)).map Prod.fst).Perm
        ((chunkEntries cs).map Prod.fst ++ [kv.1]) := by
      have h := hstep.map Prod.fst
      rwa [List.map_append, List.map_cons, List.map_nil] at h
    have hnd' : ((chunkEntries (chunkStepAmended parse cs kv)).map Prod.fst
        ++ rest.map Prod.fst).Nodup := by
      refine (hkeys.append_right _).symm.nodup ?_
      rw [List.append_assoc, List.singleton_append]
      exact hnd
    have hrec := chunk_foldl_perm parse rest (chunkStepAmended parse cs kv) hnd'
    rw [List.foldl_cons]
    refine hrec.trans ?_
    refine (hstep.append_right _).trans ?_
    rw [List.map_cons, List.append_assoc, List.singleton_append]

theorem entriesOf_keys (parse : String → J)
    (data : List (String × SerializedValue)) :
    (data.map (fun kv => (kv.1, parsedOf parse kv.2))).map Prod.fst
      = data.map Prod.fst := by
  rw [List.map_map]
  rfl

theorem loadCore_renderChunks (cs : ChunkState J)
    (hnd : ((chunkEntries cs).map Prod.fst).Nodup) :
    loadCore (renderChunks cs) = some (cs.rolling ++ cs.pieces.flatten) := by
  rw [chunkEntries, List.map_append] at hnd
  have hndr : (cs.rolling.map Prod.fst).Nodup := (List.nodup_append.mp hnd).2.1
  have hnd2 : ((cs.rolling ++ cs.pieces.flatten).map Prod.fst).Nodup := by
    rw [List.map_append]
    exact List.perm_append_comm.nodup hnd
  have hpop : populateFromSerializable ([] : List (String × ParsedValue J))
      cs.rolling = cs.rolling :=
    populate_eq_append cs.rolling [] hndr (fun k hk => by
      simp [FluidDir.mhas, FluidDir.mget] at hk)
  have hhdr : mget (renderChunks cs) "header"
      = some (SnapBlob.head ((List.range' 0 cs.pieces.length).map blobName)
          cs.rolling) := by
    rw [renderChunks, mget_append, mget_nameChunks_header 0 cs.pieces]
    rfl
  have heq1 : loadCore (renderChunks cs)
      = (match mget (renderChunks cs) "header" with
         | none => none
         | some (SnapBlob.head blobs content) =>
           blobs.foldl
             (fun acc name =>
               match acc, mget (renderChunks cs) name with
               | some st, some (SnapBlob.chunk b) =>
                 some (populateFromSerializable st b)
               | _, _ => none)
             (some (populateFromSerializable [] content))
         | some (SnapBlob.chunk content) =>
           some (populateFromSerializable [] content)) := rfl
  have hfold : ((List.range' 0 cs.pieces.length).map blobName).foldl
      (fun acc name =>
        match acc, mget (renderChunks cs) name with
        | some st, some (SnapBlob.chunk b) => some (populateFromSerializable st b)
        | _, _ => none)
      (some (populateFromSerializable [] cs.rolling))
      = some (cs.rolling ++ cs.pieces.flatten) := by
    rw [hpop]
    exact load_fold
      (SnapBlob.head ((List.range' 0 cs.pieces.length).map blobName) cs.rolling)
      cs.pieces [] cs.rolling hnd2
  rw [heq1, hhdr]
  exact hfold

end FluidMap

namespace FluidMap

open FluidDir (mget mhas)

variable {J : Type}

/-- **C5**.  For every serialized kernel state with distinct keys, loading
(`SharedMap.loadCore`) from the tree produced by `SharedMap.snapshot`
restores exactly the original entries: the load succeeds with a storage
whose lookup at every key equals the lookup of the serialized state
(each key carries the value it was serialized with, parsed), the
multiset of entries across all written blobs is a permutation of the
serialized entries (no entry dropped, no key written into more than one
blob), and a legacy `header` whose body has no `blobs` array is loaded
as a single data object. -/
theorem c5_snapshot_load_roundtrip (parse : String → J)
    (data : List (String × SerializedValue))
    (hnd : (data.map Prod.fst).Nodup) :
    (∃ st, loadCore (snapshot parse data) = some st ∧
        ∀ k, mget st k
          = mget (data.map (fun kv => (kv.1, parsedOf parse kv.2))) k) ∧
    (allEntries (snapshot parse data)).Perm
      (data.map (fun kv => (kv.1, parsedOf parse kv.2))) ∧
    ∀ content : List (String × ParsedValue J),
      loadCore [("header", SnapBlob.chunk content)]
        = some (populateFromSerializable [] content) := by
  have hcs0 := chunk_foldl_perm parse data ⟨[], [], 0⟩ (by
    simpa [chunkEntries] using hnd)
  have hcs : (chunkEntries (data.foldl (chunkStepAmended parse)
        ⟨[], [], 0⟩)).Perm
      (data.map (fun kv => (kv.1, parsedOf parse kv.2))) := by
    simpa [chunkEntries] using hcs0
  have hkeys : ((chunkEntries (data.foldl (chunkStepAmended parse)
        ⟨[], [], 0⟩)).map Prod.fst).Perm (data.map Prod.fst) := by
    have h := hcs.map Prod.fst
    rwa [entriesOf_keys] at h
  have hndcs : ((chunkEntries (data.foldl (chunkStepAmended parse)
        ⟨[], [], 0⟩)).map Prod.fst).Nodup := hkeys.symm.nodup hnd
  have hload := loadCore_renderChunks
    (data.foldl (chunkStepAmended parse) ⟨[], [], 0⟩) hndcs
  have hsnap : snapshot parse data
      = renderChunks (data.foldl (chunkStepAmended parse) ⟨[], [], 0⟩) :=
    snapshot_eq_snapshotAmended parse data
  refine ⟨⟨(data.foldl (chunkStepAmended parse) ⟨[], [], 0⟩).rolling
      ++ (data.foldl (chunkStepAmended parse) ⟨[], [], 0⟩).pieces.flatten,
      ?_, ?_⟩, ?_, ?_⟩
  · rw [hsnap]
    exact hload
  · intro k
    refine FluidDir.mget_eq_of_perm ?_ ?_ k
    · exact List.perm_append_comm.trans hcs
    · rw [entriesOf_keys]
      exact hnd
  · rw [hsnap, allEntries_renderChunks]
    exact hcs
  · intro content
    rfl

/-- A two-entry kernel state (one plain payload, one `undefined`
payload) for instantiating the round-trip law. -/
def c5Data : List (String × SerializedValue) :=
  [("a", ⟨"Plain", some "1"⟩), ("b", ⟨"Plain", none⟩)]

/-- Witness instantiating `c5_snapshot_load_roundtrip` at `c5Data` with
`parse` the identity on strings. -/
theorem c5_witness :
    (c5Data.map Prod.fst).Nodup ∧
    ((∃ st, loadCore (snapshot (fun s => s) c5Data) = some st ∧
        ∀ k, FluidDir.mget st k
          = FluidDir.mget
              (c5Data.map (fun kv => (kv.1, parsedOf (fun s => s) kv.2))) k) ∧
     (allEntries (snapshot (fun s => s) c5Data)).Perm
       (c5Data.map (fun kv => (kv.1, parsedOf (fun s => s) kv.2))) ∧
     ∀ content : List (String × ParsedValue String),
       loadCore [("header", SnapBlob.chunk content)]
         = some (populateFromSerializable [] content)) :=
  ⟨by decide, c5_snapshot_load_roundtrip (fun s => s) c5Data (by decide)⟩

end FluidMap
